import Mathlib

set_option maxHeartbeats 1000000

/-!
Shallow embedding of the clob-tcp-engine matching server
(src/server/src/types.rs, engine.rs, main.rs).

Machine integers (u64) are modelled as Nat: the source never subtracts below
zero on the paths embedded here (fills are clamped by min), and parsing checks
are made explicit.  Prices and ids are Nat; i64 wire fields are decoded from
little-endian bytes with an explicit sign test against 2^63.
-/

/-- Side from types.rs. -/
inductive Side where
  | bid
  | ask
deriving DecidableEq, Repr

/-- Time in force from types.rs. -/
inductive Tif where
  | gtc
  | ioc
deriving DecidableEq, Repr

/-- Order from types.rs. -/
structure Order where
  id : Nat
  cl_id : Nat
  side : Side
  price : Nat
  qty : Nat
  timestamp : Nat
  tif : Tif
deriving DecidableEq, Repr

/-- One price level: the VecDeque of resting orders, head first. -/
abbrev Level := List Order

/-- One side of the book.  The source uses a BTreeMap keyed by price; here an
association list of (price, level) kept best-price-first: asks ascending (the
source iterates from the front), bids descending (the source iterates with
next_back, i.e. from the greatest key). -/
abbrev SideBook := List (Nat × Level)

/-- OrderBook from types.rs.  `lookup` models the HashMap id to (side, price);
as an association list with the most recent insertion first. -/
structure OrderBook where
  bids : SideBook
  asks : SideBook
  lookup : List (Nat × Side × Nat)
deriving DecidableEq, Repr

def emptyBook : OrderBook := ⟨[], [], []⟩

/-- Event from types.rs. -/
inductive Event where
  | ack (ordId : Nat) (note : String)
  | reject (ordId : Nat) (reason : String)
  | trade (price qty takerCl makerCl : Nat)
  | bookDelta (side : Side) (price levelQty : Nat)
  | pong
deriving DecidableEq, Repr

/-- Command from types.rs.  The reply sink carried by each Rust command is
implicit: step functions below return the list of events the engine sends to
that command's sink separately from the broadcast list. -/
inductive Cmd where
  | ping
  | order (o : Order)
  | cancel (clId ordId : Nat)
deriving DecidableEq, Repr

/-! ### HashMap / BTreeMap operations on the list models -/

def lkFind : List (Nat × Side × Nat) → Nat → Option (Side × Nat)
  | [], _ => none
  | (k, v) :: rest, i => if k = i then some v else lkFind rest i

def lkErase (l : List (Nat × Side × Nat)) (i : Nat) : List (Nat × Side × Nat) :=
  l.filter (fun e => decide (e.1 ≠ i))

def lkInsert (l : List (Nat × Side × Nat)) (i : Nat) (v : Side × Nat) :
    List (Nat × Side × Nat) :=
  (i, v) :: lkErase l i

def keys (sb : SideBook) : List Nat := sb.map Prod.fst

def bkFind : SideBook → Nat → Option Level
  | [], _ => none
  | (p, q) :: rest, px => if p = px then some q else bkFind rest px

def eraseKey (sb : SideBook) (px : Nat) : SideBook :=
  sb.filter (fun e => decide (e.1 ≠ px))

def setLevel (sb : SideBook) (px : Nat) (q : Level) : SideBook :=
  sb.map (fun e => if e.1 = px then (px, q) else e)

def sumQty (q : Level) : Nat := (q.map Order.qty).sum

/-- Aggregate remaining quantity at one price (0 when the key is absent),
mirroring `b.asks.get(&px).map(sum).unwrap_or(0)` in engine.rs. -/
def levelQty (sb : SideBook) (px : Nat) : Nat := sumQty ((bkFind sb px).getD [])

/-- BTreeMap entry(px).or_insert_with(new).push_back(o) for the bid side
(keys kept descending, best bid first). -/
def insDesc : SideBook → Nat → Order → SideBook
  | [], px, o => [(px, [o])]
  | (p, q) :: rest, px, o =>
    if px > p then (px, [o]) :: (p, q) :: rest
    else if px = p then (p, q ++ [o]) :: rest
    else (p, q) :: insDesc rest px o

/-- Same for the ask side (keys kept ascending, best ask first). -/
def insAsc : SideBook → Nat → Order → SideBook
  | [], px, o => [(px, [o])]
  | (p, q) :: rest, px, o =>
    if px < p then (px, [o]) :: (p, q) :: rest
    else if px = p then (p, q ++ [o]) :: rest
    else (p, q) :: insAsc rest px o

/-! ### The matching engine (engine.rs) -/

/-- The inner `while remaining > 0 { front_mut ... }` loop of handle_new at one
price level.  Each iteration records a fill of `min remaining front.qty`, pops
the head when its remaining reaches zero, and otherwise leaves the reduced head
in place (the loop then exits, remaining having reached zero).  Fills are
recorded as (maker order as it was before the fill, fill quantity); engine.rs
emits the Trade for every iteration, including a zero fill on a degenerate
zero-quantity head.  Returns (remaining, level after, fills in order). -/
def matchLevel : Nat → Level → Nat × Level × List (Order × Nat)
  | rem, [] => (rem, [], [])
  | rem, front :: rest =>
    if rem = 0 then (rem, front :: rest, [])
    else
      let fill := min rem front.qty
      if front.qty - fill = 0 then
        match matchLevel (rem - fill) rest with
        | (r2, q2, f2) => (r2, q2, (front, fill) :: f2)
      else
        (rem - fill, { front with qty := front.qty - fill } :: rest, [(front, fill)])

/-- The outer `while remaining > 0` crossing loop of handle_new, walking the
opposite side best price first.  `priceOk px` is the source's limit test
(continue while `ask_px ≤ no.price` for a bid taker, `bid_px ≥ no.price` for an
ask taker); `oppSide` names the side being consumed, used in the emitted
BookDelta.  After a level is drained the key is removed and a BookDelta with
the recomputed (possibly zero) level quantity is broadcast.  When the inner
loop leaves the level non-empty, the taker remaining is zero (matchLevel_rem
below), so the source while-condition fails and the loop exits; the definition
returns directly in that case.  Returns (remaining, opposite side after,
broadcast events in order). -/
def matchLoop (priceOk : Nat → Bool) (takerCl : Nat) (oppSide : Side) :
    Nat → SideBook → Nat × SideBook × List Event
  | rem, [] => (rem, [], [])
  | rem, (px, q) :: rest =>
    if rem = 0 then (rem, (px, q) :: rest, [])
    else if priceOk px then
      match matchLevel rem q with
      | (rem2, q2, fills) =>
        let trades := fills.map (fun f => Event.trade px f.2 takerCl f.1.cl_id)
        if q2 = [] then
          match matchLoop priceOk takerCl oppSide rem2 rest with
          | (r3, b3, e3) => (r3, b3, (trades ++ [Event.bookDelta oppSide px 0]) ++ e3)
        else
          (rem2, (px, q2) :: rest, trades ++ [Event.bookDelta oppSide px (sumQty q2)])
    else (rem, (px, q) :: rest, [])

def isTrade : Event → Bool
  | .trade _ _ _ _ => true
  | _ => false

/-- handle_new from engine.rs.  Matches against the opposite side, rests a GTC
residual (recording it in lookup and broadcasting the updated level quantity),
and always ends with a single Ack "ok" to the submitter.  Each Trade goes to
both the submitter sink and the broadcast sink; BookDeltas go to the broadcast
sink only.  Returns (book, submitter sink events, broadcast events). -/
def handleNew (o : Order) (b : OrderBook) : OrderBook × List Event × List Event :=
  match o.side with
  | .bid =>
    match matchLoop (fun apx => decide (apx ≤ o.price)) o.cl_id Side.ask o.qty b.asks with
    | (rem, asks2, mevs) =>
      if 0 < rem ∧ o.tif = Tif.gtc then
        let bids2 := insDesc b.bids o.price { o with qty := rem }
        ({ bids := bids2, asks := asks2, lookup := lkInsert b.lookup o.id (Side.bid, o.price) },
         mevs.filter isTrade ++ [Event.ack o.id "ok"],
         mevs ++ [Event.bookDelta Side.bid o.price (levelQty bids2 o.price)])
      else
        ({ b with asks := asks2 }, mevs.filter isTrade ++ [Event.ack o.id "ok"], mevs)
  | .ask =>
    match matchLoop (fun bpx => decide (o.price ≤ bpx)) o.cl_id Side.bid o.qty b.bids with
    | (rem, bids2, mevs) =>
      if 0 < rem ∧ o.tif = Tif.gtc then
        let asks2 := insAsc b.asks o.price { o with qty := rem }
        ({ bids := bids2, asks := asks2, lookup := lkInsert b.lookup o.id (Side.ask, o.price) },
         mevs.filter isTrade ++ [Event.ack o.id "ok"],
         mevs ++ [Event.bookDelta Side.ask o.price (levelQty asks2 o.price)])
      else
        ({ b with bids := bids2 }, mevs.filter isTrade ++ [Event.ack o.id "ok"], mevs)

/-- `q.iter().position(|o| o.id == ord_id)` followed by `q.remove(pos)`:
remove the first order with the given id, or none when absent. -/
def removeFirstById : Level → Nat → Option Level
  | [], _ => none
  | o :: rest, i =>
    if o.id = i then some rest
    else
      match removeFirstById rest i with
      | none => none
      | some r => some (o :: r)

/-- handle_cancel from engine.rs.  The source calls `lookup.remove(&ord_id)`
first, so every path below the lookup hit — including the two not-found
failure paths — leaves the lookup entry deleted.  On success it removes the
order, broadcasts the post-removal level quantity, and erases the level when
empty.  Returns (book, found, broadcast events). -/
def handleCancel (ordId : Nat) (b : OrderBook) : OrderBook × Bool × List Event :=
  match lkFind b.lookup ordId with
  | none => (b, false, [])
  | some (side, px) =>
    let lk2 := lkErase b.lookup ordId
    match side with
    | .bid =>
      match bkFind b.bids px with
      | none => ({ b with lookup := lk2 }, false, [])
      | some q =>
        match removeFirstById q ordId with
        | none => ({ b with lookup := lk2 }, false, [])
        | some q2 =>
          let bids2 := if q2 = [] then eraseKey b.bids px else setLevel b.bids px q2
          ({ b with bids := bids2, lookup := lk2 }, true,
           [Event.bookDelta Side.bid px (sumQty q2)])
    | .ask =>
      match bkFind b.asks px with
      | none => ({ b with lookup := lk2 }, false, [])
      | some q =>
        match removeFirstById q ordId with
        | none => ({ b with lookup := lk2 }, false, [])
        | some q2 =>
          let asks2 := if q2 = [] then eraseKey b.asks px else setLevel b.asks px q2
          ({ b with asks := asks2, lookup := lk2 }, true,
           [Event.bookDelta Side.ask px (sumQty q2)])

/-- One iteration of the run_engine command loop (the 5-second heartbeat tick
is diagnostic only and changes no state).  Ping answers Pong; Order runs
handle_new; Cancel runs handle_cancel and acks "canceled" or rejects
"not_found".  Returns (book, submitter sink events, broadcast events). -/
def stepEngine (b : OrderBook) : Cmd → OrderBook × List Event × List Event
  | .ping => (b, [Event.pong], [])
  | .order o => handleNew o b
  | .cancel _ ordId =>
    match handleCancel ordId b with
    | (b2, true, md) => (b2, [Event.ack ordId "canceled"], md)
    | (b2, false, md) => (b2, [Event.reject ordId "not_found"], md)

/-- Process a command sequence from a starting book. -/
def runBook (b : OrderBook) : List Cmd → OrderBook
  | [] => b
  | c :: cs => runBook (stepEngine b c).1 cs

def sinkOf (b : OrderBook) (c : Cmd) : List Event := (stepEngine b c).2.1

def mdOf (b : OrderBook) (c : Cmd) : List Event := (stepEngine b c).2.2

/-! ### The gateway connection handler (main.rs, `process`) -/

/-- Observable effects of one pass of the `process` frame loop.  The handler in
main.rs only ever sends commands to the engine channel and logs; it has no
socket-write path, so no code below ever constructs `writeClient` — the
constructor exists to state that no event is written back to the client. -/
inductive GwAct where
  | sendCmd (c : Cmd)
  | writeClient (e : Event)
  | logUnknown (t : Nat)
  | logBadNewLen (n : Nat)
  | logBadCancelLen (n : Nat)
deriving DecidableEq, Repr

/-- Little-endian byte-list value. -/
def leNum : List Nat → Nat
  | [] => 0
  | b :: rest => b + 256 * leNum rest

/-- Split one frame's payload (the bytes after the u32 length prefix) into
msg_type, body_len and body, as the source's `get_u16_le` twice then
`split_to(body_len)`.  Reading past the end of the payload — fewer than 4
header bytes, or body_len exceeding payload_len − 4 — aborts the connection
task in the source; modelled as `Except.error ()`. -/
def parseFrame (payload : List Nat) : Except Unit (Nat × Nat × List Nat) :=
  if payload.length < 4 then Except.error ()
  else
    let t := leNum (payload.take 2)
    let blen := leNum ((payload.drop 2).take 2)
    if payload.length - 4 < blen then Except.error ()
    else Except.ok (t, blen, (payload.drop 4).take blen)

/-- The per-frame dispatch of `process` in main.rs.  Ping forwards a Ping
command.  NewOrder with body_len ≥ 34 decodes the fields: a negative i64 price
or qty (top bit set, `u64::try_from(...).expect(...)`) aborts the task
(`Except.error ()`); the side byte maps 0 to Bid and anything else to Ask, the
tif byte maps 0 to GTC and anything else to IOC; the decoded order is sent to
the engine.  A short NewOrder body is only logged.  A Cancel body of ≥ 16
bytes is parsed into unused bindings and nothing is sent; a short one is only
logged.  Any other msg_type is only logged.  `now` stands for the wall-clock
timestamp the source reads. -/
def dispatch (now t blen : Nat) (body : List Nat) : Except Unit (List GwAct) :=
  if t = 1 then Except.ok [GwAct.sendCmd Cmd.ping]
  else if t = 10 then
    if 34 ≤ blen then
      let priceRaw := leNum ((body.drop 17).take 8)
      let qtyRaw := leNum ((body.drop 25).take 8)
      if 2 ^ 63 ≤ priceRaw then Except.error ()
      else if 2 ^ 63 ≤ qtyRaw then Except.error ()
      else Except.ok [GwAct.sendCmd (Cmd.order
        { id := leNum ((body.drop 8).take 8)
          cl_id := leNum (body.take 8)
          side := if body.getD 16 0 = 0 then Side.bid else Side.ask
          price := priceRaw
          qty := qtyRaw
          timestamp := now
          tif := if body.getD 33 0 = 0 then Tif.gtc else Tif.ioc })]
    else Except.ok [GwAct.logBadNewLen blen]
  else if t = 11 then
    if 16 ≤ blen then Except.ok []
    else Except.ok [GwAct.logBadCancelLen blen]
  else Except.ok [GwAct.logUnknown t]

/-- The `while buf.len() >= 6` frame-extraction loop of `process`: read the u32
payload length, stop on an incomplete frame (the source breaks and awaits more
bytes), otherwise split the frame off and dispatch it.  An abort in parsing or
dispatch aborts the whole pass.  Structural recursion on a fuel argument; each
iteration consumes at least 4 bytes of the buffer, so fuel equal to the buffer
length (supplied by processBuf below) can never run out before the loop's own
exit conditions fire. -/
def processBufF : Nat → Nat → List Nat → Except Unit (List GwAct)
  | 0, _, _ => Except.ok []
  | fuel + 1, now, buf =>
    if 6 ≤ buf.length then
      let plen := leNum (buf.take 4)
      if buf.length < 4 + plen then Except.ok []
      else
        match parseFrame ((buf.take (4 + plen)).drop 4) with
        | Except.error e => Except.error e
        | Except.ok (t, blen, body) =>
          match dispatch now t blen body with
          | Except.error e => Except.error e
          | Except.ok acts =>
            match processBufF fuel now (buf.drop (4 + plen)) with
            | Except.error e => Except.error e
            | Except.ok more => Except.ok (acts ++ more)
    else Except.ok []

/-- One pass of the frame-extraction loop of `process` over the current buffer. -/
def processBuf (now : Nat) (buf : List Nat) : Except Unit (List GwAct) :=
  processBufF buf.length now buf

/-! ### Specification predicates -/

def sortedDesc (sb : SideBook) : Prop := List.Pairwise (· > ·) (keys sb)

def sortedAsc (sb : SideBook) : Prop := List.Pairwise (· < ·) (keys sb)

/-- No resting bid price reaches any resting ask price. -/
def crossOK (b : OrderBook) : Prop :=
  ∀ pb ∈ keys b.bids, ∀ pa ∈ keys b.asks, pb < pa

def WF (b : OrderBook) : Prop :=
  sortedDesc b.bids ∧ sortedAsc b.asks ∧ crossOK b

def nodupKeys (sb : SideBook) : Prop := (keys sb).Nodup

def maxKey (sb : SideBook) : Nat := (keys sb).foldr max 0

def minKey : SideBook → Nat
  | [] => 0
  | (p, _) :: rest => (keys rest).foldr min p

/-- Number of resting orders with a given id in one level. -/
def countIdL (q : Level) (i : Nat) : Nat :=
  (q.filter (fun o => decide (o.id = i))).length

/-- Number of resting orders with a given id on one side. -/
def countId (sb : SideBook) (i : Nat) : Nat :=
  (sb.map (fun e => countIdL e.2 i)).sum

/-- Number of resting orders with a given id in the whole book. -/
def restingCount (b : OrderBook) (i : Nat) : Nat :=
  countId b.bids i + countId b.asks i

/-- Every resting order's id is recorded in lookup at the level that holds it. -/
def LookupSound (b : OrderBook) : Prop :=
  (∀ px q o, (px, q) ∈ b.bids → o ∈ q → lkFind b.lookup o.id = some (Side.bid, px)) ∧
  (∀ px q o, (px, q) ∈ b.asks → o ∈ q → lkFind b.lookup o.id = some (Side.ask, px))

/-- No id rests more than once in the book. -/
def IdsOnce (b : OrderBook) : Prop := ∀ i, restingCount b i ≤ 1

/-- Every resting id was the id of some processed NewOrder. -/
def IdsUsed (b : OrderBook) (used : List Nat) : Prop :=
  ∀ i, 1 ≤ restingCount b i → i ∈ used

/-- Ids of the NewOrder commands in a sequence. -/
def newOrderIds : List Cmd → List Nat
  | [] => []
  | .order o :: cs => o.id :: newOrderIds cs
  | _ :: cs => newOrderIds cs

def sideMap (b : OrderBook) : Side → SideBook
  | .bid => b.bids
  | .ask => b.asks

def isTerminal : Event → Bool
  | .ack _ _ => true
  | .reject _ _ => true
  | _ => false

/-- The broadcast stream shape claimed by the spec after amendment: blocks of
Trades at one price each closed by a BookDelta at that price, with standalone
BookDeltas (the rested-remainder delta) allowed between blocks.  The pending
argument carries the price of an open trade block. -/
def mdShapeAux : Option Nat → List Event → Bool
  | pend, [] => pend.isNone
  | pend, Event.trade p _ _ _ :: r =>
    (match pend with
     | none => mdShapeAux (some p) r
     | some q => if p = q then mdShapeAux (some p) r else false)
  | pend, Event.bookDelta _ p _ :: r =>
    (match pend with
     | none => mdShapeAux none r
     | some q => if p = q then mdShapeAux none r else false)
  | _, _ => false

def mdShape (evs : List Event) : Bool := mdShapeAux none evs

/-- The literal shape asserted by the spec sentence for C6: every Trade is
immediately followed by a BookDelta. -/
def tradeThenDelta : List Event → Bool
  | [] => true
  | Event.trade _ _ _ _ :: r =>
    (match r with
     | Event.bookDelta _ _ _ :: _ => tradeThenDelta r
     | _ => false)
  | _ :: r => tradeThenDelta r

def isWriteClient : GwAct → Bool
  | .writeClient _ => true
  | _ => false

/-! ### Basic lemmas about the lookup map model -/

theorem lkFind_erase_self (l : List (Nat × Side × Nat)) (i : Nat) :
    lkFind (lkErase l i) i = none := by
  induction l with
  | nil => rfl
  | cons e rest ih =>
    simp only [lkErase, List.filter_cons] at *
    by_cases hk : e.1 = i
    · simpa [hk] using ih
    · simpa [lkFind, hk] using ih

theorem lkFind_erase_ne (l : List (Nat × Side × Nat)) (i j : Nat) (h : j ≠ i) :
    lkFind (lkErase l i) j = lkFind l j := by
  induction l with
  | nil => rfl
  | cons e rest ih =>
    rcases e with ⟨k, v⟩
    by_cases hk : k = i
    · have hkj : ¬ (k = j) := fun hh => h (hh ▸ hk)
      simp only [lkErase, List.filter_cons, hk, lkFind] at *
      simpa [hkj] using ih
    · simp only [lkErase, List.filter_cons, lkFind] at *
      by_cases hkj : k = j <;> simp [lkFind, hk, hkj, h, ih] <;> simpa using ih

theorem lkFind_insert_self (l : List (Nat × Side × Nat)) (i : Nat) (v : Side × Nat) :
    lkFind (lkInsert l i v) i = some v := by
  simp [lkInsert, lkFind]

theorem lkFind_insert_ne (l : List (Nat × Side × Nat)) (i j : Nat) (v : Side × Nat)
    (h : j ≠ i) : lkFind (lkInsert l i v) j = lkFind l j := by
  simp only [lkInsert, lkFind]
  rw [if_neg (by omega), lkFind_erase_ne l i j h]

theorem filter_isTrade_all (l : List Event) : (l.filter isTrade).all isTrade = true := by
  rw [List.all_eq_true]
  intro e he
  exact (List.mem_filter.mp he).2

/-! ### Claims about cancel (C10) and sink discipline (C7) -/

/-- Claim C10: when lookup maps an id to a side and price but no order with
that id is present in that level (or the level is absent), handle_cancel
returns false — producing Reject "not_found" — and yet the lookup entry for
the id has already been removed, because the source removes it before
verifying the order's presence. -/
theorem cancel_notfound_clears_lookup (b : OrderBook) (i : Nat) (s : Side) (px : Nat)
    (hl : lkFind b.lookup i = some (s, px))
    (habs : ∀ q, bkFind (sideMap b s) px = some q → removeFirstById q i = none) :
    (handleCancel i b).2.1 = false ∧ lkFind (handleCancel i b).1.lookup i = none := by
  unfold handleCancel
  cases s with
  | bid =>
    simp only [sideMap] at habs
    cases hb : bkFind b.bids px with
    | none => simp [hl, hb, lkFind_erase_self]
    | some q => simp [hl, hb, habs q hb, lkFind_erase_self]
  | ask =>
    simp only [sideMap] at habs
    cases hb : bkFind b.asks px with
    | none => simp [hl, hb, lkFind_erase_self]
    | some q => simp [hl, hb, habs q hb, lkFind_erase_self]

/-- Witness for cancel_notfound_clears_lookup: a book whose lookup holds a
stale entry for id 7 at bid price 99 while the bid map is empty. -/
theorem cancel_notfound_clears_lookup_wit :
    lkFind (OrderBook.mk [] [] [(7, (Side.bid, 99))]).lookup 7 = some (Side.bid, 99) ∧
    ((handleCancel 7 (OrderBook.mk [] [] [(7, (Side.bid, 99))])).2.1 = false ∧
      lkFind (handleCancel 7 (OrderBook.mk [] [] [(7, (Side.bid, 99))])).1.lookup 7 = none) :=
  ⟨rfl, cancel_notfound_clears_lookup _ 7 Side.bid 99 rfl (fun q hq => by cases hq)⟩

/-- Claim C7 (amended): every Order command's submitter sink receives its
Trades followed by exactly one terminal Ack "ok"; every Cancel command's sink
receives exactly one terminal Ack "canceled" or Reject "not_found"; a Ping's
sink receives a single Pong, which is neither an Ack nor a Reject. -/
theorem engine_sink_terminal_events (b : OrderBook) (c : Cmd) :
    match c with
    | Cmd.ping => sinkOf b c = [Event.pong]
    | Cmd.order o => ∃ ts, sinkOf b c = ts ++ [Event.ack o.id "ok"] ∧ ts.all isTrade = true
    | Cmd.cancel _ i =>
        sinkOf b c = [Event.ack i "canceled"] ∨ sinkOf b c = [Event.reject i "not_found"] := by
  cases c with
  | ping => rfl
  | order o =>
    simp only [sinkOf, stepEngine]
    unfold handleNew
    cases o.side with
    | bid =>
      rcases hm : matchLoop (fun apx => decide (apx ≤ o.price)) o.cl_id Side.ask o.qty b.asks
        with ⟨rem, asks2, mevs⟩
      refine ⟨mevs.filter isTrade, ?_, filter_isTrade_all mevs⟩
      by_cases h : 0 < rem ∧ o.tif = Tif.gtc <;> simp [hm, h]
    | ask =>
      rcases hm : matchLoop (fun bpx => decide (o.price ≤ bpx)) o.cl_id Side.bid o.qty b.bids
        with ⟨rem, bids2, mevs⟩
      refine ⟨mevs.filter isTrade, ?_, filter_isTrade_all mevs⟩
      by_cases h : 0 < rem ∧ o.tif = Tif.gtc <;> simp [hm, h]
  | cancel cl i =>
    simp only [sinkOf, stepEngine]
    rcases hc : handleCancel i b with ⟨b2, found, md⟩
    cases found
    · right
      simp [hc]
    · left
      simp [hc]

/-- Counterexample to claim C7 as stated: a Ping command reaching the engine
produces no terminal Ack or Reject at all — its sink receives exactly one
Pong. -/
theorem ping_has_no_terminal_ack :
    sinkOf emptyBook Cmd.ping = [Event.pong] ∧
    (List.filter isTerminal (sinkOf emptyBook Cmd.ping)).length = 0 :=
  ⟨rfl, rfl⟩

/-! ### Gateway claims: dropped Cancel (C3), validation (C4), frame errors (C9) -/

/-- Claim C3: the connection handler decodes a well-formed Cancel frame
(msg_type 11, 16-byte body) but enqueues nothing on the engine channel — the
parsed fields are dropped — while the same handler does forward a well-formed
Ping frame.  This theorem evaluates the embedded handler at the failing input. -/
theorem cancel_frame_silently_dropped :
    processBuf 0 [20, 0, 0, 0, 11, 0, 16, 0,
        1, 0, 0, 0, 0, 0, 0, 0, 7, 0, 0, 0, 0, 0, 0, 0] = Except.ok [] ∧
    processBuf 0 [4, 0, 0, 0, 1, 0, 0, 0] = Except.ok [GwAct.sendCmd Cmd.ping] :=
  ⟨rfl, rfl⟩

/-- Counterexample to claim C4 as stated: a NewOrder frame carrying price −1
(i64 little-endian, all bytes 0xFF) does not produce a Reject — the
u64::try_from(price).expect(...) in the handler aborts the connection task,
modelled as Except.error. -/
theorem negative_price_aborts_connection :
    processBuf 0 ([38, 0, 0, 0, 10, 0, 34, 0] ++
      [1, 0, 0, 0, 0, 0, 0, 0] ++ [2, 0, 0, 0, 0, 0, 0, 0] ++ [0] ++
      [255, 255, 255, 255, 255, 255, 255, 255] ++
      [1, 0, 0, 0, 0, 0, 0, 0] ++ [0]) = Except.error () :=
  rfl

/-- Counterexample to claim C9 as stated: a frame with unknown msg_type 99 is
only logged — the handler sends nothing back to the client (no Reject with
reason "unknown_msg") and forwards nothing to the engine. -/
theorem unknown_type_gets_no_reject :
    processBuf 0 [4, 0, 0, 0, 99, 0, 0, 0] = Except.ok [GwAct.logUnknown 99] ∧
    List.filter isWriteClient [GwAct.logUnknown 99] = [] :=
  ⟨rfl, rfl⟩

/-- Counterexample to claim C1 as stated: after an ask for 5 rests (id 1) and
a bid (id 2) fully fills it, the maker's level is removed from the book but
its id is still a key of lookup — `id ∈ lookup` no longer implies a resting
order. -/
theorem lookup_retains_filled_id :
    lkFind (runBook emptyBook
      [Cmd.order ⟨1, 11, Side.ask, 100, 5, 0, Tif.gtc⟩,
       Cmd.order ⟨2, 22, Side.bid, 100, 5, 0, Tif.gtc⟩]).lookup 1 = some (Side.ask, 100) ∧
    restingCount (runBook emptyBook
      [Cmd.order ⟨1, 11, Side.ask, 100, 5, 0, Tif.gtc⟩,
       Cmd.order ⟨2, 22, Side.bid, 100, 5, 0, Tif.gtc⟩]) 1 = 0 :=
  ⟨rfl, rfl⟩

/-- Counterexample to claim C6 as stated: when a taker consumes two resting
orders at one price, the broadcast stream is Trade, Trade, BookDelta — the
BookDelta follows the level visit, not each individual head consumption. -/
theorem delta_not_after_each_trade :
    mdOf (runBook emptyBook
      [Cmd.order ⟨1, 11, Side.ask, 100, 2, 0, Tif.gtc⟩,
       Cmd.order ⟨2, 22, Side.ask, 100, 2, 0, Tif.gtc⟩])
      (Cmd.order ⟨3, 33, Side.bid, 100, 4, 0, Tif.gtc⟩) =
      [Event.trade 100 2 33 11, Event.trade 100 2 33 22,
       Event.bookDelta Side.ask 100 0] ∧
    tradeThenDelta (mdOf (runBook emptyBook
      [Cmd.order ⟨1, 11, Side.ask, 100, 2, 0, Tif.gtc⟩,
       Cmd.order ⟨2, 22, Side.ask, 100, 2, 0, Tif.gtc⟩])
      (Cmd.order ⟨3, 33, Side.bid, 100, 4, 0, Tif.gtc⟩)) = false :=
  ⟨rfl, rfl⟩

/-! ### Matching-loop helper lemmas -/

theorem matchLoop_zero (pOk : Nat → Bool) (cl : Nat) (s : Side) (sb : SideBook) :
    matchLoop pOk cl s 0 sb = (0, sb, []) := by
  cases sb <;> rfl

/-- Every BookDelta emitted by the crossing loop names the consumed side. -/
theorem matchLoop_delta_side (pOk : Nat → Bool) (cl : Nat) (opp : Side) (rem : Nat)
    (sb : SideBook) :
    ∀ s p lq, Event.bookDelta s p lq ∈ (matchLoop pOk cl opp rem sb).2.2 → s = opp := by
  induction sb generalizing rem with
  | nil => simp [matchLoop]
  | cons hd rest ih =>
    rcases hd with ⟨px, q⟩
    intro s p lq hmem
    unfold matchLoop at hmem
    by_cases h0 : rem = 0
    · simp [h0] at hmem
    · rcases hpo : pOk px with _ | _
      · simp [h0, hpo] at hmem
      · rcases hml : matchLevel rem q with ⟨rem2, q2, fills⟩
        rw [hml] at hmem
        by_cases hq2 : q2 = []
        · rcases hloop : matchLoop pOk cl opp rem2 rest with ⟨r3, b3, e3⟩
          simp only [h0, hpo, hq2, if_neg, if_pos, if_true, reduceIte, hloop] at hmem
          rcases List.mem_append.mp hmem with hin | hin
          · rcases List.mem_append.mp hin with hin2 | hin2
            · rcases List.mem_map.mp hin2 with ⟨f, _, hf⟩
              cases hf
            · simp at hin2
              exact hin2.1
          · exact ih rem2 s p lq (by rw [hloop]; exact hin)
        · simp only [h0, hpo, hq2, if_neg, if_pos, if_true, reduceIte] at hmem
          rcases List.mem_append.mp hmem with hin | hin
          · rcases List.mem_map.mp hin with ⟨f, _, hf⟩
            cases hf
          · simp at hin
            exact hin.1

/-! ### Claim C8: IOC residual is discarded -/

/-- Claim C8: a NewOrder with tif = IOC that still has remaining quantity after
matching rests nothing: the taker-side map and the lookup index are exactly as
before the command, and no BookDelta for the taker's side is broadcast (the
conclusion holds for any IOC order, with or without residual). -/
theorem ioc_residual_discarded (o : Order) (b : OrderBook) (h : o.tif = Tif.ioc) :
    (handleNew o b).1.lookup = b.lookup ∧
    (o.side = Side.bid → (handleNew o b).1.bids = b.bids) ∧
    (o.side = Side.ask → (handleNew o b).1.asks = b.asks) ∧
    ∀ p q, Event.bookDelta o.side p q ∉ (handleNew o b).2.2 := by
  unfold handleNew
  cases hs : o.side with
  | bid =>
    rcases hm : matchLoop (fun apx => decide (apx ≤ o.price)) o.cl_id Side.ask o.qty b.asks
      with ⟨rem, asks2, mevs⟩
    have hng : ¬ (0 < rem ∧ o.tif = Tif.gtc) := fun hc => by simp [h] at hc
    refine ⟨?_, ?_, ?_, ?_⟩
    · simp [hng]
    · intro
      simp [hng]
    · intro hc
      exact absurd hc (by decide)
    · intro p q hmem
      simp only [hng, if_neg, reduceIte] at hmem
      have h2 := matchLoop_delta_side (fun apx => decide (apx ≤ o.price)) o.cl_id Side.ask
        o.qty b.asks Side.bid p q (by rw [hm]; exact hmem)
      exact absurd h2 (by decide)
  | ask =>
    rcases hm : matchLoop (fun bpx => decide (o.price ≤ bpx)) o.cl_id Side.bid o.qty b.bids
      with ⟨rem, bids2, mevs⟩
    have hng : ¬ (0 < rem ∧ o.tif = Tif.gtc) := fun hc => by simp [h] at hc
    refine ⟨?_, ?_, ?_, ?_⟩
    · simp [hng]
    · intro hc
      exact absurd hc (by decide)
    · intro
      simp [hng]
    · intro p q hmem
      simp only [hng, if_neg, reduceIte] at hmem
      have h2 := matchLoop_delta_side (fun bpx => decide (o.price ≤ bpx)) o.cl_id Side.bid
        o.qty b.bids Side.ask p q (by rw [hm]; exact hmem)
      exact absurd h2 (by decide)

/-- Witness for ioc_residual_discarded: a partial IOC bid against a book with
one resting ask for 2 at price 100. -/
theorem ioc_residual_discarded_wit :
    (let o := Order.mk 5 50 Side.bid 100 5 0 Tif.ioc
     let b := OrderBook.mk [] [(100, [Order.mk 1 10 Side.ask 100 2 0 Tif.gtc])]
       [(1, (Side.ask, 100))]
     o.tif = Tif.ioc ∧
       ((handleNew o b).1.lookup = b.lookup ∧
        (o.side = Side.bid → (handleNew o b).1.bids = b.bids) ∧
        (o.side = Side.ask → (handleNew o b).1.asks = b.asks) ∧
        ∀ p q, Event.bookDelta o.side p q ∉ (handleNew o b).2.2)) :=
  ⟨rfl, ioc_residual_discarded _ _ rfl⟩

/-! ### Claim C4 (amended): what actually happens to invalid NewOrder fields -/

/-- Claim C4 (amended): a NewOrder body whose i64 price is negative (top bit
set) aborts the connection task instead of producing a Reject; likewise for a
negative qty; a side or tif byte outside range 0 is silently coerced (nonzero
side to Ask, nonzero tif to IOC) and the order is forwarded; and a zero-qty
order reaching the engine is acknowledged with note "ok", the book unchanged —
no Reject with reason "invalid" exists anywhere. -/
theorem invalid_fields_behavior :
    (∀ now blen body, 34 ≤ blen → 2 ^ 63 ≤ leNum ((body.drop 17).take 8) →
      dispatch now 10 blen body = Except.error ()) ∧
    (∀ now blen body, 34 ≤ blen → leNum ((body.drop 17).take 8) < 2 ^ 63 →
      2 ^ 63 ≤ leNum ((body.drop 25).take 8) →
      dispatch now 10 blen body = Except.error ()) ∧
    (∀ now blen body, 34 ≤ blen → leNum ((body.drop 17).take 8) < 2 ^ 63 →
      leNum ((body.drop 25).take 8) < 2 ^ 63 →
      dispatch now 10 blen body = Except.ok [GwAct.sendCmd (Cmd.order
        { id := leNum ((body.drop 8).take 8)
          cl_id := leNum (body.take 8)
          side := if body.getD 16 0 = 0 then Side.bid else Side.ask
          price := leNum ((body.drop 17).take 8)
          qty := leNum ((body.drop 25).take 8)
          timestamp := now
          tif := if body.getD 33 0 = 0 then Tif.gtc else Tif.ioc })]) ∧
    (∀ o b, o.qty = 0 → handleNew o b = (b, [Event.ack o.id "ok"], [])) := by
  refine ⟨?_, ?_, ?_, ?_⟩
  · intro now blen body hb hp
    norm_num at hp
    simp [dispatch, hb, hp]
  · intro now blen body hb hp hq
    norm_num at hp hq
    have hp2 : ¬ (9223372036854775808 ≤ leNum ((body.drop 17).take 8)) := by omega
    simp [dispatch, hb, hp2, hq]
  · intro now blen body hb hp hq
    norm_num at hp hq
    have hp2 : ¬ (9223372036854775808 ≤ leNum ((body.drop 17).take 8)) := by omega
    have hq2 : ¬ (9223372036854775808 ≤ leNum ((body.drop 25).take 8)) := by omega
    simp [dispatch, hb, hp2, hq2]
  · intro o b hq
    unfold handleNew
    cases o.side with
    | bid => simp [hq, matchLoop_zero]
    | ask => simp [hq, matchLoop_zero]

/-- Witness for invalid_fields_behavior: a 34-byte body with negative price;
the same body with price flipped positive and negative qty; a body with side
byte 1 and tif byte 7; and a zero-qty order against the empty book. -/
theorem invalid_fields_behavior_wit :
    (34 ≤ 34 ∧ 2 ^ 63 ≤ leNum ((([1, 0, 0, 0, 0, 0, 0, 0, 2, 0, 0, 0, 0, 0, 0, 0, 0,
        255, 255, 255, 255, 255, 255, 255, 255, 1, 0, 0, 0, 0, 0, 0, 0, 0] :
        List Nat).drop 17).take 8) ∧
      dispatch 0 10 34 [1, 0, 0, 0, 0, 0, 0, 0, 2, 0, 0, 0, 0, 0, 0, 0, 0,
        255, 255, 255, 255, 255, 255, 255, 255, 1, 0, 0, 0, 0, 0, 0, 0, 0] =
        Except.error ()) ∧
    ((Order.mk 9 90 Side.bid 5 0 0 Tif.gtc).qty = 0 ∧
      handleNew (Order.mk 9 90 Side.bid 5 0 0 Tif.gtc) emptyBook =
        (emptyBook, [Event.ack 9 "ok"], [])) := by
  constructor
  · refine ⟨by decide, by decide, ?_⟩
    exact invalid_fields_behavior.1 0 34 _ (by decide) (by decide)
  · exact ⟨rfl, invalid_fields_behavior.2.2.2 _ emptyBook rfl⟩

/-! ### Claim C9 (amended): frame error handling as implemented -/

/-- Claim C9 (amended): a frame with an unknown msg_type is only logged — no
Reject is written to the client, nothing is forwarded to the engine, and the
handler keeps processing subsequent frames; a frame whose body_len field
exceeds payload_len − 4 (and likewise a payload shorter than its own 4-byte
header) aborts the connection task rather than producing a Reject
"bad_frame". -/
theorem frame_error_handling :
    (∀ now t blen body, t ≠ 1 → t ≠ 10 → t ≠ 11 →
      dispatch now t blen body = Except.ok [GwAct.logUnknown t]) ∧
    (∀ payload : List Nat, 4 ≤ payload.length →
      payload.length - 4 < leNum ((payload.drop 2).take 2) →
      parseFrame payload = Except.error ()) ∧
    (∀ payload : List Nat, payload.length < 4 → parseFrame payload = Except.error ()) ∧
    processBuf 0 ([4, 0, 0, 0, 99, 0, 0, 0] ++ [4, 0, 0, 0, 1, 0, 0, 0]) =
      Except.ok [GwAct.logUnknown 99, GwAct.sendCmd Cmd.ping] := by
  refine ⟨?_, ?_, ?_, rfl⟩
  · intro now t blen body h1 h10 h11
    simp [dispatch, h1, h10, h11]
  · intro payload h4 hlen
    have h4n : ¬ (payload.length < 4) := by omega
    simp [parseFrame, h4n, hlen]
  · intro payload h4
    simp [parseFrame, h4]

/-- Witness for frame_error_handling: msg_type 99 is unknown, and a 4-byte
payload declaring body_len 2 overruns its own frame. -/
theorem frame_error_handling_wit :
    ((99 : Nat) ≠ 1 ∧ (99 : Nat) ≠ 10 ∧ (99 : Nat) ≠ 11 ∧
      dispatch 0 99 0 [] = Except.ok [GwAct.logUnknown 99]) ∧
    (4 ≤ ([99, 0, 2, 0] : List Nat).length ∧
      ([99, 0, 2, 0] : List Nat).length - 4 < leNum ((([99, 0, 2, 0] : List Nat).drop 2).take 2) ∧
      parseFrame [99, 0, 2, 0] = Except.error ()) := by
  constructor
  · exact ⟨by decide, by decide, by decide,
      frame_error_handling.1 0 99 0 [] (by decide) (by decide) (by decide)⟩
  · exact ⟨by decide, by decide,
      frame_error_handling.2.1 [99, 0, 2, 0] (by decide) (by decide)⟩

/-! ### Claim C5: price-time-priority matching discipline -/

/-- Characterization of one inner-loop step: a head smaller than the taker
remaining is consumed whole and matching continues on the tail; a head at
least as large absorbs the whole remaining and stays (reduced) at the front. -/
theorem matchLevel_cons (rem : Nat) (front : Order) (rest : Level) (h0 : rem ≠ 0) :
    matchLevel rem (front :: rest) =
      if front.qty ≤ rem then
        ((matchLevel (rem - front.qty) rest).1,
         (matchLevel (rem - front.qty) rest).2.1,
         (front, front.qty) :: (matchLevel (rem - front.qty) rest).2.2)
      else (0, { front with qty := front.qty - rem } :: rest, [(front, rem)]) := by
  conv_lhs => rw [matchLevel]
  by_cases hle : front.qty ≤ rem
  · have hfill : min rem front.qty = front.qty := by omega
    have hz : front.qty - min rem front.qty = 0 := by omega
    rcases hml : matchLevel (rem - front.qty) rest with ⟨r2, q2, f2⟩
    simp [h0, hfill, hz, hml, hle]
  · have hfill : min rem front.qty = rem := by omega
    have hz : ¬ (front.qty - min rem front.qty = 0) := by omega
    have hz2 : front.qty - rem ≠ 0 := by omega
    simp [h0, hfill, hz, hle, hz2]

/-- When the inner loop leaves the level non-empty, the taker remaining has
reached zero (the source's while-condition then exits). -/
theorem matchLevel_rem (rem : Nat) (q : Level) :
    (matchLevel rem q).2.1 ≠ [] → (matchLevel rem q).1 = 0 := by
  induction q generalizing rem with
  | nil => intro h; simp [matchLevel] at h
  | cons front rest ih =>
    intro h
    by_cases h0 : rem = 0
    · simp [matchLevel, h0]
    · rw [matchLevel_cons rem front rest h0] at h ⊢
      by_cases hle : front.qty ≤ rem
      · simp only [hle, if_pos, reduceIte] at h ⊢
        exact ih (rem - front.qty) h
      · simp [hle]

/-- Characterization of one outer-loop step at a level whose price passes the
limit test: drain the level with matchLevel, emit the Trades then one
BookDelta, remove the level and continue when it emptied, stop otherwise. -/
theorem matchLoop_stop (pOk : Nat → Bool) (cl : Nat) (opp : Side) (rem px : Nat)
    (q : Level) (rest : SideBook) (h0 : rem ≠ 0) (hpo : pOk px = true) :
    matchLoop pOk cl opp rem ((px, q) :: rest) =
      if (matchLevel rem q).2.1 = [] then
        ((matchLoop pOk cl opp (matchLevel rem q).1 rest).1,
         (matchLoop pOk cl opp (matchLevel rem q).1 rest).2.1,
         ((matchLevel rem q).2.2.map (fun f => Event.trade px f.2 cl f.1.cl_id) ++
           [Event.bookDelta opp px 0]) ++
           (matchLoop pOk cl opp (matchLevel rem q).1 rest).2.2)
      else ((matchLevel rem q).1, (px, (matchLevel rem q).2.1) :: rest,
        (matchLevel rem q).2.2.map (fun f => Event.trade px f.2 cl f.1.cl_id) ++
          [Event.bookDelta opp px (sumQty (matchLevel rem q).2.1)]) := by
  conv_lhs => rw [matchLoop]
  rcases hml : matchLevel rem q with ⟨rem2, q2, fills⟩
  by_cases hq2 : q2 = []
  · rcases hloop : matchLoop pOk cl opp rem2 rest with ⟨r3, b3, e3⟩
    simp [h0, hpo, hq2, hml, hloop]
  · simp [h0, hpo, hq2, hml]

/-- Characterization of the outer-loop exit at a level whose price fails the
limit test: the loop breaks, leaving the side untouched. -/
theorem matchLoop_skip (pOk : Nat → Bool) (cl : Nat) (opp : Side) (rem px : Nat)
    (q : Level) (rest : SideBook) (h0 : rem ≠ 0) (hpo : pOk px = false) :
    matchLoop pOk cl opp rem ((px, q) :: rest) = (rem, (px, q) :: rest, []) := by
  conv_lhs => rw [matchLoop]
  simp [h0, hpo]

/-- When the crossing loop exits with remaining quantity, either the opposite
side is exhausted or its best remaining level fails the limit test. -/
theorem matchLoop_exit (pOk : Nat → Bool) (cl : Nat) (opp : Side) (rem : Nat)
    (sb : SideBook) :
    (matchLoop pOk cl opp rem sb).1 ≠ 0 →
    (matchLoop pOk cl opp rem sb).2.1 = [] ∨
    ∃ px q rest, (matchLoop pOk cl opp rem sb).2.1 = (px, q) :: rest ∧ pOk px = false := by
  induction sb generalizing rem with
  | nil => intro _; left; rfl
  | cons hd rest ih =>
    rcases hd with ⟨px, q⟩
    intro hr
    by_cases h0 : rem = 0
    · subst h0
      rw [matchLoop_zero] at hr
      exact absurd rfl hr
    · rcases hpo : pOk px with _ | _
      · rw [matchLoop_skip pOk cl opp rem px q rest h0 hpo] at hr ⊢
        right
        exact ⟨px, q, rest, rfl, hpo⟩
      · rw [matchLoop_stop pOk cl opp rem px q rest h0 hpo] at hr ⊢
        by_cases hq2 : (matchLevel rem q).2.1 = []
        · rw [if_pos hq2] at hr ⊢
          exact ih _ hr
        · rw [if_neg hq2] at hr
          exact absurd (matchLevel_rem rem q hq2) hr

/-- Claim C5: (i) when the taker still has remaining quantity, the first fill
taken at a level equals min(taker remaining, head remaining) and is charged to
the head order; (ii) FIFO — with A resting ahead of B at a level, B receives a
fill only if A's entire remaining quantity was filled; (iii) the crossing loop
stops exactly with remaining zero, the opposite side empty, or a best opposite
level that fails the taker's limit test; (iv) drained levels are removed — the
loop never leaves an empty level behind. -/
theorem matching_discipline :
    (∀ rem A tl, rem ≠ 0 →
      (matchLevel rem (A :: tl)).2.2.head? = some (A, min rem A.qty)) ∧
    (∀ rem (A B : Order) tl, A.id ≠ B.id →
      (∃ f, (B, f) ∈ (matchLevel rem (A :: B :: tl)).2.2) →
      (A, A.qty) ∈ (matchLevel rem (A :: B :: tl)).2.2) ∧
    (∀ pOk cl opp rem sb, (matchLoop pOk cl opp rem sb).1 ≠ 0 →
      (matchLoop pOk cl opp rem sb).2.1 = [] ∨
      ∃ px q rest, (matchLoop pOk cl opp rem sb).2.1 = (px, q) :: rest ∧ pOk px = false) ∧
    (∀ pOk cl opp rem sb, (∀ e ∈ sb, e.2 ≠ ([] : Level)) →
      ∀ e ∈ (matchLoop pOk cl opp rem sb).2.1, e.2 ≠ ([] : Level)) := by
  refine ⟨?_, ?_, ?_, ?_⟩
  · intro rem A tl h0
    rw [matchLevel_cons rem A tl h0]
    by_cases hle : A.qty ≤ rem
    · have : min rem A.qty = A.qty := by omega
      simp [hle, this]
    · have : min rem A.qty = rem := by omega
      simp [hle, this]
  · intro rem A B tl hid hmem
    by_cases h0 : rem = 0
    · rcases hmem with ⟨f, hf⟩
      simp [matchLevel, h0] at hf
    · rw [matchLevel_cons rem A (B :: tl) h0] at hmem ⊢
      by_cases hle : A.qty ≤ rem
      · simp [hle]
      · rcases hmem with ⟨f, hf⟩
        simp only [hle, if_neg, reduceIte, List.mem_singleton] at hf
        have : B = A := congrArg Prod.fst hf
        exact absurd (congrArg Order.id this) (Ne.symm hid)
  · intro pOk cl opp rem sb
    exact matchLoop_exit pOk cl opp rem sb
  · intro pOk cl opp rem sb
    induction sb generalizing rem with
    | nil => intro h e he; simp [matchLoop] at he
    | cons hd rest ih =>
      rcases hd with ⟨px, q⟩
      intro hall e he
      by_cases h0 : rem = 0
      · subst h0
        rw [matchLoop_zero] at he
        exact hall e he
      · rcases hpo : pOk px with _ | _
        · rw [matchLoop_skip pOk cl opp rem px q rest h0 hpo] at he
          exact hall e he
        · rw [matchLoop_stop pOk cl opp rem px q rest h0 hpo] at he
          by_cases hq2 : (matchLevel rem q).2.1 = []
          · rw [if_pos hq2] at he
            exact ih _ (fun e2 he2 => hall e2 (List.mem_cons_of_mem _ he2)) e he
          · rw [if_neg hq2] at he
            rcases List.mem_cons.mp he with hh | hh
            · rw [hh]
              exact hq2
            · exact hall e (List.mem_cons_of_mem _ hh)

/-- Witness for matching_discipline: taker remaining 4 against makers A (2)
then B (3) at price 100; a loop whose best level fails the limit test; a book
with one non-empty level. -/
theorem matching_discipline_wit :
    ((4 : Nat) ≠ 0 ∧
      (matchLevel 4 [Order.mk 1 11 Side.ask 100 2 0 Tif.gtc]).2.2.head? =
        some (Order.mk 1 11 Side.ask 100 2 0 Tif.gtc,
          min 4 (Order.mk 1 11 Side.ask 100 2 0 Tif.gtc).qty)) ∧
    ((Order.mk 1 11 Side.ask 100 2 0 Tif.gtc).id ≠ (Order.mk 2 22 Side.ask 100 3 0 Tif.gtc).id ∧
      (Order.mk 1 11 Side.ask 100 2 0 Tif.gtc, (Order.mk 1 11 Side.ask 100 2 0 Tif.gtc).qty) ∈
        (matchLevel 4 [Order.mk 1 11 Side.ask 100 2 0 Tif.gtc,
          Order.mk 2 22 Side.ask 100 3 0 Tif.gtc]).2.2) ∧
    ((matchLoop (fun px => decide (px ≤ 99)) 0 Side.ask 5
        [(100, [Order.mk 1 11 Side.ask 100 2 0 Tif.gtc])]).1 ≠ 0 ∧
      ((matchLoop (fun px => decide (px ≤ 99)) 0 Side.ask 5
          [(100, [Order.mk 1 11 Side.ask 100 2 0 Tif.gtc])]).2.1 = [] ∨
        ∃ px q rest, (matchLoop (fun px => decide (px ≤ 99)) 0 Side.ask 5
          [(100, [Order.mk 1 11 Side.ask 100 2 0 Tif.gtc])]).2.1 = (px, q) :: rest ∧
          (fun px => decide (px ≤ 99)) px = false)) ∧
    ∀ e ∈ (matchLoop (fun px => decide (px ≤ 105)) 0 Side.ask 1
        [(100, [Order.mk 1 11 Side.ask 100 2 0 Tif.gtc])]).2.1, e.2 ≠ ([] : Level) := by
  refine ⟨⟨by decide, matching_discipline.1 4 _ _ (by decide)⟩, ?_, ?_, ?_⟩
  · refine ⟨by decide, matching_discipline.2.1 4 _ _ _ (by decide) ?_⟩
    exact ⟨2, by decide⟩
  · exact ⟨by decide, matching_discipline.2.2.1 _ 0 Side.ask 5 _ (by decide)⟩
  · exact matching_discipline.2.2.2 _ 0 Side.ask 1 _ (by decide)

/-! ### Claim C6 (amended): shape of the broadcast stream -/

theorem mdShapeAux_trades (fills : List (Order × Nat)) (px cl lq : Nat) (opp : Side)
    (k : List Event) :
    mdShapeAux (some px) (fills.map (fun f => Event.trade px f.2 cl f.1.cl_id) ++
      Event.bookDelta opp px lq :: k) = mdShapeAux none k := by
  induction fills with
  | nil => simp [mdShapeAux]
  | cons f fs ih => simpa [mdShapeAux] using ih

theorem mdShapeAux_block (fills : List (Order × Nat)) (px cl lq : Nat) (opp : Side)
    (k : List Event) :
    mdShapeAux none (fills.map (fun f => Event.trade px f.2 cl f.1.cl_id) ++
      Event.bookDelta opp px lq :: k) = mdShapeAux none k := by
  cases fills with
  | nil => simp [mdShapeAux]
  | cons f fs => simpa [mdShapeAux] using mdShapeAux_trades fs px cl lq opp k

/-- The broadcast events of the crossing loop are complete blocks: Trades at
one price closed by a BookDelta at that price. -/
theorem matchLoop_shape (pOk : Nat → Bool) (cl : Nat) (opp : Side) :
    ∀ rem sb k, mdShapeAux none ((matchLoop pOk cl opp rem sb).2.2 ++ k) =
      mdShapeAux none k := by
  intro rem sb
  induction sb generalizing rem with
  | nil => intro k; rfl
  | cons hd rest ih =>
    rcases hd with ⟨px, q⟩
    intro k
    by_cases h0 : rem = 0
    · subst h0
      rw [matchLoop_zero]
      rfl
    · rcases hpo : pOk px with _ | _
      · rw [matchLoop_skip pOk cl opp rem px q rest h0 hpo]
        rfl
      · rw [matchLoop_stop pOk cl opp rem px q rest h0 hpo]
        by_cases hq2 : (matchLevel rem q).2.1 = []
        · rw [if_pos hq2]
          show mdShapeAux none ((((matchLevel rem q).2.2.map _ ++ [Event.bookDelta opp px 0]) ++
            (matchLoop pOk cl opp (matchLevel rem q).1 rest).2.2) ++ k) = mdShapeAux none k
          rw [List.append_assoc, List.append_assoc, List.singleton_append]
          rw [mdShapeAux_block]
          exact ih (matchLevel rem q).1 k
        · rw [if_neg hq2]
          show mdShapeAux none (((matchLevel rem q).2.2.map _ ++
            [Event.bookDelta opp px (sumQty (matchLevel rem q).2.1)]) ++ k) = mdShapeAux none k
          rw [List.append_assoc, List.singleton_append]
          exact mdShapeAux_block _ px cl _ opp k

/-- Keys of the opposite side never grow during matching. -/
theorem matchLoop_keys (pOk : Nat → Bool) (cl : Nat) (opp : Side) :
    ∀ rem sb p, p ∈ keys (matchLoop pOk cl opp rem sb).2.1 → p ∈ keys sb := by
  intro rem sb
  induction sb generalizing rem with
  | nil => intro p hp; simpa [matchLoop] using hp
  | cons hd rest ih =>
    rcases hd with ⟨px, q⟩
    intro p hp
    by_cases h0 : rem = 0
    · subst h0
      rw [matchLoop_zero] at hp
      exact hp
    · rcases hpo : pOk px with _ | _
      · rw [matchLoop_skip pOk cl opp rem px q rest h0 hpo] at hp
        exact hp
      · rw [matchLoop_stop pOk cl opp rem px q rest h0 hpo] at hp
        by_cases hq2 : (matchLevel rem q).2.1 = []
        · rw [if_pos hq2] at hp
          exact List.mem_cons_of_mem _ (ih _ p hp)
        · rw [if_neg hq2] at hp
          simpa [keys] using by simpa [keys] using hp

theorem bkFind_none (sb : SideBook) (p : Nat) (h : p ∉ keys sb) : bkFind sb p = none := by
  induction sb with
  | nil => rfl
  | cons hd rest ih =>
    rcases hd with ⟨k, q⟩
    simp only [keys, List.map_cons, List.mem_cons, not_or] at h
    simp only [bkFind]
    rw [if_neg (fun hh => h.1 hh.symm)]
    exact ih (by simpa [keys] using h.2)

/-- Every BookDelta broadcast by the crossing loop announces exactly the
aggregate quantity that its level holds in the loop's final book (zero when
the level was removed). -/
theorem matchLoop_delta_qty (pOk : Nat → Bool) (cl : Nat) (opp : Side) :
    ∀ rem sb, nodupKeys sb →
      ∀ s p lq, Event.bookDelta s p lq ∈ (matchLoop pOk cl opp rem sb).2.2 →
        lq = levelQty (matchLoop pOk cl opp rem sb).2.1 p := by
  intro rem sb
  induction sb generalizing rem with
  | nil => intro _ s p lq hmem; simp [matchLoop] at hmem
  | cons hd rest ih =>
    rcases hd with ⟨px, q⟩
    intro hnd s p lq hmem
    simp only [nodupKeys, keys, List.map_cons, List.nodup_cons] at hnd
    have hpxr : px ∉ keys rest := hnd.1
    have hndr : nodupKeys rest := hnd.2
    by_cases h0 : rem = 0
    · subst h0
      rw [matchLoop_zero] at hmem
      simp at hmem
    · rcases hpo : pOk px with _ | _
      · rw [matchLoop_skip pOk cl opp rem px q rest h0 hpo] at hmem
        simp at hmem
      · rw [matchLoop_stop pOk cl opp rem px q rest h0 hpo] at hmem ⊢
        by_cases hq2 : (matchLevel rem q).2.1 = []
        · rw [if_pos hq2] at hmem ⊢
          rcases List.mem_append.mp hmem with hin | hin
          · rcases List.mem_append.mp hin with hin2 | hin2
            · rcases List.mem_map.mp hin2 with ⟨f, _, hf⟩
              cases hf
            · simp at hin2
              rcases hin2 with ⟨_, hp, hlq⟩
              subst hp
              subst hlq
              have hout : p ∉ keys (matchLoop pOk cl opp (matchLevel rem q).1 rest).2.1 :=
                fun hc => hpxr (matchLoop_keys pOk cl opp _ rest p hc)
              simp [levelQty, bkFind_none _ _ hout, sumQty]
          · exact ih _ hndr s p lq hin
        · rw [if_neg hq2] at hmem ⊢
          rcases List.mem_append.mp hmem with hin | hin
          · rcases List.mem_map.mp hin with ⟨f, _, hf⟩
            cases hf
          · simp at hin
            rcases hin with ⟨_, hp, hlq⟩
            subst hp
            subst hlq
            simp [levelQty, bkFind]

/-- Claim C6 (amended): for every NewOrder the broadcast stream consists of
blocks — the Trades of one level visit, all at that level's price, closed by a
single BookDelta at that price (one delta per level visit, not per individual
Trade) — optionally followed by a final standalone BookDelta for a rested GTC
remainder; and every BookDelta announces exactly the aggregate remaining
quantity its level holds after the mutation (equivalently, in the
post-command book, since matching never revisits a level). -/
theorem md_stream_shape (o : Order) (b : OrderBook)
    (ha : nodupKeys b.asks) (hb : nodupKeys b.bids) :
    mdShape (mdOf b (Cmd.order o)) = true ∧
    ∀ s p lq, Event.bookDelta s p lq ∈ mdOf b (Cmd.order o) →
      lq = levelQty (sideMap (stepEngine b (Cmd.order o)).1 s) p := by
  simp only [mdOf, stepEngine]
  unfold handleNew
  cases hs : o.side with
  | bid =>
    rcases hm : matchLoop (fun apx => decide (apx ≤ o.price)) o.cl_id Side.ask o.qty b.asks
      with ⟨rem, asks2, mevs⟩
    have hsh := matchLoop_shape (fun apx => decide (apx ≤ o.price)) o.cl_id Side.ask o.qty b.asks
    rw [hm] at hsh
    have hqty := matchLoop_delta_qty (fun apx => decide (apx ≤ o.price)) o.cl_id Side.ask
      o.qty b.asks ha
    rw [hm] at hqty
    have hsd := matchLoop_delta_side (fun apx => decide (apx ≤ o.price)) o.cl_id Side.ask
      o.qty b.asks
    rw [hm] at hsd
    by_cases hrest : 0 < rem ∧ o.tif = Tif.gtc
    · constructor
      · simp only [hrest, and_self, if_true, reduceIte]
        exact (hsh _).trans rfl
      · intro s p lq hmem
        simp only [hrest, and_self, if_true, reduceIte] at hmem ⊢
        rcases List.mem_append.mp hmem with hin | hin
        · have hs2 := hsd s p lq hin
          subst hs2
          have hl := hqty Side.ask p lq hin
          simpa [sideMap] using hl
        · simp at hin
          rcases hin with ⟨hseq, hpeq, hlq⟩
          subst hseq
          subst hpeq
          subst hlq
          simp [sideMap]
    · constructor
      · simp only [hrest, if_false, reduceIte]
        rw [← List.append_nil mevs]
        exact (hsh _).trans rfl
      · intro s p lq hmem
        simp only [hrest, if_false, reduceIte] at hmem ⊢
        have hs2 := hsd s p lq hmem
        subst hs2
        have hl := hqty Side.ask p lq hmem
        simpa [sideMap] using hl
  | ask =>
    rcases hm : matchLoop (fun bpx => decide (o.price ≤ bpx)) o.cl_id Side.bid o.qty b.bids
      with ⟨rem, bids2, mevs⟩
    have hsh := matchLoop_shape (fun bpx => decide (o.price ≤ bpx)) o.cl_id Side.bid o.qty b.bids
    rw [hm] at hsh
    have hqty := matchLoop_delta_qty (fun bpx => decide (o.price ≤ bpx)) o.cl_id Side.bid
      o.qty b.bids hb
    rw [hm] at hqty
    have hsd := matchLoop_delta_side (fun bpx => decide (o.price ≤ bpx)) o.cl_id Side.bid
      o.qty b.bids
    rw [hm] at hsd
    by_cases hrest : 0 < rem ∧ o.tif = Tif.gtc
    · constructor
      · simp only [hrest, and_self, if_true, reduceIte]
        exact (hsh _).trans rfl
      · intro s p lq hmem
        simp only [hrest, and_self, if_true, reduceIte] at hmem ⊢
        rcases List.mem_append.mp hmem with hin | hin
        · have hs2 := hsd s p lq hin
          subst hs2
          have hl := hqty Side.bid p lq hin
          simpa [sideMap] using hl
        · simp at hin
          rcases hin with ⟨hseq, hpeq, hlq⟩
          subst hseq
          subst hpeq
          subst hlq
          simp [sideMap]
    · constructor
      · simp only [hrest, if_false, reduceIte]
        rw [← List.append_nil mevs]
        exact (hsh _).trans rfl
      · intro s p lq hmem
        simp only [hrest, if_false, reduceIte] at hmem ⊢
        have hs2 := hsd s p lq hmem
        subst hs2
        have hl := hqty Side.bid p lq hmem
        simpa [sideMap] using hl

/-- Witness for md_stream_shape: a bid for 4 that drains a two-order ask level
at price 100 and rests its remainder at a book with one ask level. -/
theorem md_stream_shape_wit :
    (let b := OrderBook.mk []
       [(100, [Order.mk 1 11 Side.ask 100 2 0 Tif.gtc, Order.mk 2 22 Side.ask 100 3 0 Tif.gtc])]
       [(1, (Side.ask, 100)), (2, (Side.ask, 100))]
     let o := Order.mk 3 33 Side.bid 100 9 0 Tif.gtc
     nodupKeys b.asks ∧ nodupKeys b.bids ∧
       (mdShape (mdOf b (Cmd.order o)) = true ∧
        ∀ s p lq, Event.bookDelta s p lq ∈ mdOf b (Cmd.order o) →
          lq = levelQty (sideMap (stepEngine b (Cmd.order o)).1 s) p)) :=
  ⟨by unfold nodupKeys; decide, by unfold nodupKeys; decide,
    md_stream_shape _ _ (by unfold nodupKeys; decide) (by unfold nodupKeys; decide)⟩

/-! ### Claim C2: the book is never crossed at rest -/

/-- The crossing loop leaves a tail of the opposite side's key sequence. -/
theorem matchLoop_suffix (pOk : Nat → Bool) (cl : Nat) (opp : Side) :
    ∀ rem sb, keys (matchLoop pOk cl opp rem sb).2.1 <:+ keys sb := by
  intro rem sb
  induction sb generalizing rem with
  | nil => simp [matchLoop]
  | cons hd rest ih =>
    rcases hd with ⟨px, q⟩
    by_cases h0 : rem = 0
    · subst h0
      rw [matchLoop_zero]
    · rcases hpo : pOk px with _ | _
      · rw [matchLoop_skip pOk cl opp rem px q rest h0 hpo]
      · rw [matchLoop_stop pOk cl opp rem px q rest h0 hpo]
        by_cases hq2 : (matchLevel rem q).2.1 = []
        · rw [if_pos hq2]
          refine (ih _).trans ?_
          show keys rest <:+ keys ((px, q) :: rest)
          simp only [keys, List.map_cons]
          exact List.suffix_cons px (List.map Prod.fst rest)
        · rw [if_neg hq2]
          show keys ((px, (matchLevel rem q).2.1) :: rest) <:+ keys ((px, q) :: rest)
          simp [keys]

theorem keys_insDesc (sb : SideBook) (px : Nat) (o : Order) :
    ∀ p ∈ keys (insDesc sb px o), p = px ∨ p ∈ keys sb := by
  induction sb with
  | nil =>
    intro p hp
    simp [insDesc, keys] at hp
    exact Or.inl hp
  | cons hd rest ih =>
    rcases hd with ⟨k, q⟩
    intro p hp
    by_cases h1 : px > k
    · simp only [insDesc, if_pos h1, keys, List.map_cons, List.mem_cons] at hp ⊢
      tauto
    · by_cases h2 : px = k
      · simp only [insDesc, if_neg h1, if_pos h2, keys, List.map_cons, List.mem_cons] at hp ⊢
        tauto
      · simp only [insDesc, if_neg h1, if_neg h2, keys, List.map_cons, List.mem_cons] at hp ⊢
        rcases hp with hp | hp
        · tauto
        · rcases ih p hp with h | h
          · exact Or.inl h
          · exact Or.inr (Or.inr h)

theorem keys_insAsc (sb : SideBook) (px : Nat) (o : Order) :
    ∀ p ∈ keys (insAsc sb px o), p = px ∨ p ∈ keys sb := by
  induction sb with
  | nil =>
    intro p hp
    simp [insAsc, keys] at hp
    exact Or.inl hp
  | cons hd rest ih =>
    rcases hd with ⟨k, q⟩
    intro p hp
    by_cases h1 : px < k
    · simp only [insAsc, if_pos h1, keys, List.map_cons, List.mem_cons] at hp ⊢
      tauto
    · by_cases h2 : px = k
      · simp only [insAsc, if_neg h1, if_pos h2, keys, List.map_cons, List.mem_cons] at hp ⊢
        tauto
      · simp only [insAsc, if_neg h1, if_neg h2, keys, List.map_cons, List.mem_cons] at hp ⊢
        rcases hp with hp | hp
        · tauto
        · rcases ih p hp with h | h
          · exact Or.inl h
          · exact Or.inr (Or.inr h)

theorem sortedDesc_insDesc (sb : SideBook) (px : Nat) (o : Order)
    (h : List.Pairwise (· > ·) (keys sb)) :
    List.Pairwise (· > ·) (keys (insDesc sb px o)) := by
  induction sb with
  | nil => simp [insDesc, keys]
  | cons hd rest ih =>
    rcases hd with ⟨k, q⟩
    simp only [keys, List.map_cons, List.pairwise_cons] at h
    by_cases h1 : px > k
    · simp only [insDesc, if_pos h1, keys, List.map_cons, List.pairwise_cons]
      refine ⟨?_, ?_⟩
      · intro p hp
        rcases List.mem_cons.mp hp with rfl | hp2
        · exact h1
        · exact Nat.lt_trans (h.1 p hp2) h1
      · exact ⟨h.1, h.2⟩
    · by_cases h2 : px = k
      · simp only [insDesc, if_neg h1, if_pos h2, keys, List.map_cons, List.pairwise_cons]
        exact ⟨h.1, h.2⟩
      · simp only [insDesc, if_neg h1, if_neg h2, keys, List.map_cons, List.pairwise_cons]
        refine ⟨?_, ih h.2⟩
        intro p hp
        rcases keys_insDesc rest px o p hp with rfl | hp2
        · omega
        · exact h.1 p hp2

theorem sortedAsc_insAsc (sb : SideBook) (px : Nat) (o : Order)
    (h : List.Pairwise (· < ·) (keys sb)) :
    List.Pairwise (· < ·) (keys (insAsc sb px o)) := by
  induction sb with
  | nil => simp [insAsc, keys]
  | cons hd rest ih =>
    rcases hd with ⟨k, q⟩
    simp only [keys, List.map_cons, List.pairwise_cons] at h
    by_cases h1 : px < k
    · simp only [insAsc, if_pos h1, keys, List.map_cons, List.pairwise_cons]
      refine ⟨?_, ?_⟩
      · intro p hp
        rcases List.mem_cons.mp hp with rfl | hp2
        · exact h1
        · exact Nat.lt_trans h1 (h.1 p hp2)
      · exact ⟨h.1, h.2⟩
    · by_cases h2 : px = k
      · simp only [insAsc, if_neg h1, if_pos h2, keys, List.map_cons, List.pairwise_cons]
        exact ⟨h.1, h.2⟩
      · simp only [insAsc, if_neg h1, if_neg h2, keys, List.map_cons, List.pairwise_cons]
        refine ⟨?_, ih h.2⟩
        intro p hp
        rcases keys_insAsc rest px o p hp with rfl | hp2
        · omega
        · exact h.1 p hp2

theorem keys_eraseKey_sublist (sb : SideBook) (px : Nat) :
    List.Sublist (keys (eraseKey sb px)) (keys sb) :=
  List.Sublist.map Prod.fst (List.filter_sublist sb)

theorem keys_setLevel (sb : SideBook) (px : Nat) (q : Level) :
    keys (setLevel sb px q) = keys sb := by
  induction sb with
  | nil => rfl
  | cons hd rest ih =>
    rcases hd with ⟨k, q2⟩
    by_cases hk : k = px
    · simp [setLevel, keys, hk] at ih ⊢
      exact ih
    · simp [setLevel, keys, hk] at ih ⊢
      exact ih

theorem wf_handleNew (o : Order) (b : OrderBook) (h : WF b) : WF (handleNew o b).1 := by
  rcases h with ⟨hd, ha2, hc⟩
  unfold handleNew
  cases hs : o.side with
  | bid =>
    rcases hm : matchLoop (fun apx => decide (apx ≤ o.price)) o.cl_id Side.ask o.qty b.asks
      with ⟨rem, asks2, mevs⟩
    have hsuf : keys asks2 <:+ keys b.asks := by
      have hh := matchLoop_suffix (fun apx => decide (apx ≤ o.price)) o.cl_id Side.ask
        o.qty b.asks
      rw [hm] at hh
      exact hh
    have ha3 : List.Pairwise (· < ·) (keys asks2) := List.Pairwise.sublist hsuf.sublist ha2
    by_cases hrest : 0 < rem ∧ o.tif = Tif.gtc
    · simp only [hrest, and_self, if_true, reduceIte]
      refine ⟨?_, ha3, ?_⟩
      · exact sortedDesc_insDesc b.bids o.price _ hd
      · intro pb hpb pa hpa
        rcases keys_insDesc b.bids o.price _ pb hpb with rfl | hold
        · have hex := matchLoop_exit (fun apx => decide (apx ≤ o.price)) o.cl_id Side.ask
            o.qty b.asks
          rw [hm] at hex
          rcases hex (by omega) with hnil | ⟨apx, qq, rr, heq, hfal⟩
          · rw [show asks2 = [] from hnil] at hpa
            simp [keys] at hpa
          · have hlt : o.price < apx := by
              have hno : ¬ (apx ≤ o.price) := by simpa using hfal
              omega
            rw [show asks2 = (apx, qq) :: rr from heq] at hpa ha3
            simp only [keys, List.map_cons, List.mem_cons] at hpa
            rcases hpa with rfl | hpa2
            · exact hlt
            · have h3 : apx < pa :=
                (List.pairwise_cons.mp (by simpa [keys] using ha3)).1 pa hpa2
              omega
        · exact hc pb hold pa (hsuf.sublist.subset hpa)
    · simp only [hrest, if_false, reduceIte]
      exact ⟨hd, ha3, fun pb hpb pa hpa => hc pb hpb pa (hsuf.sublist.subset hpa)⟩
  | ask =>
    rcases hm : matchLoop (fun bpx => decide (o.price ≤ bpx)) o.cl_id Side.bid o.qty b.bids
      with ⟨rem, bids2, mevs⟩
    have hsuf : keys bids2 <:+ keys b.bids := by
      have hh := matchLoop_suffix (fun bpx => decide (o.price ≤ bpx)) o.cl_id Side.bid
        o.qty b.bids
      rw [hm] at hh
      exact hh
    have hd3 : List.Pairwise (· > ·) (keys bids2) := List.Pairwise.sublist hsuf.sublist hd
    by_cases hrest : 0 < rem ∧ o.tif = Tif.gtc
    · simp only [hrest, and_self, if_true, reduceIte]
      refine ⟨hd3, ?_, ?_⟩
      · exact sortedAsc_insAsc b.asks o.price _ ha2
      · intro pb hpb pa hpa
        rcases keys_insAsc b.asks o.price _ pa hpa with rfl | hold
        · have hex := matchLoop_exit (fun bpx => decide (o.price ≤ bpx)) o.cl_id Side.bid
            o.qty b.bids
          rw [hm] at hex
          rcases hex (by omega) with hnil | ⟨bpx, qq, rr, heq, hfal⟩
          · rw [show bids2 = [] from hnil] at hpb
            simp [keys] at hpb
          · have hlt : bpx < o.price := by
              have hno : ¬ (o.price ≤ bpx) := by simpa using hfal
              omega
            rw [show bids2 = (bpx, qq) :: rr from heq] at hpb hd3
            simp only [keys, List.map_cons, List.mem_cons] at hpb
            rcases hpb with rfl | hpb2
            · exact hlt
            · have h3 : bpx > pb :=
                (List.pairwise_cons.mp (by simpa [keys] using hd3)).1 pb hpb2
              omega
        · exact hc pb (hsuf.sublist.subset hpb) pa hold
    · simp only [hrest, if_false, reduceIte]
      exact ⟨hd3, ha2, fun pb hpb pa hpa => hc pb (hsuf.sublist.subset hpb) pa hpa⟩

theorem handleCancel_keys (i : Nat) (b : OrderBook) :
    List.Sublist (keys (handleCancel i b).1.bids) (keys b.bids) ∧
    List.Sublist (keys (handleCancel i b).1.asks) (keys b.asks) := by
  unfold handleCancel
  cases hl : lkFind b.lookup i with
  | none => exact ⟨List.Sublist.refl _, List.Sublist.refl _⟩
  | some sp =>
    rcases sp with ⟨side, px⟩
    cases side with
    | bid =>
      cases hb : bkFind b.bids px with
      | none =>
        simp only [hl, hb]
        exact ⟨List.Sublist.refl _, List.Sublist.refl _⟩
      | some q =>
        cases hr : removeFirstById q i with
        | none =>
          simp only [hl, hb, hr]
          exact ⟨List.Sublist.refl _, List.Sublist.refl _⟩
        | some q2 =>
          by_cases hq2 : q2 = []
          · simp only [hl, hb, hr, hq2, if_pos, reduceIte]
            exact ⟨keys_eraseKey_sublist b.bids px, List.Sublist.refl _⟩
          · simp only [hl, hb, hr, hq2, if_neg, reduceIte]
            rw [keys_setLevel]
            exact ⟨List.Sublist.refl _, List.Sublist.refl _⟩
    | ask =>
      cases hb : bkFind b.asks px with
      | none =>
        simp only [hl, hb]
        exact ⟨List.Sublist.refl _, List.Sublist.refl _⟩
      | some q =>
        cases hr : removeFirstById q i with
        | none =>
          simp only [hl, hb, hr]
          exact ⟨List.Sublist.refl _, List.Sublist.refl _⟩
        | some q2 =>
          by_cases hq2 : q2 = []
          · simp only [hl, hb, hr, hq2, if_pos, reduceIte]
            exact ⟨List.Sublist.refl _, keys_eraseKey_sublist b.asks px⟩
          · simp only [hl, hb, hr, hq2, if_neg, reduceIte]
            rw [keys_setLevel]
            exact ⟨List.Sublist.refl _, List.Sublist.refl _⟩

theorem wf_handleCancel (i : Nat) (b : OrderBook) (h : WF b) : WF (handleCancel i b).1 := by
  rcases h with ⟨hd, ha2, hc⟩
  rcases handleCancel_keys i b with ⟨hkb, hka⟩
  exact ⟨List.Pairwise.sublist hkb hd, List.Pairwise.sublist hka ha2,
    fun pb hpb pa hpa => hc pb (hkb.subset hpb) pa (hka.subset hpa)⟩

theorem wf_step (b : OrderBook) (c : Cmd) (h : WF b) : WF (stepEngine b c).1 := by
  cases c with
  | ping => exact h
  | order o => exact wf_handleNew o b h
  | cancel cl i =>
    have hh := wf_handleCancel i b h
    show WF (match handleCancel i b with
      | (b2, true, md) => (b2, [Event.ack i "canceled"], md)
      | (b2, false, md) => (b2, [Event.reject i "not_found"], md)).1
    rcases hcc : handleCancel i b with ⟨b2, found, md⟩
    rw [hcc] at hh
    cases found
    · exact hh
    · exact hh

theorem wf_empty : WF emptyBook := by
  refine ⟨?_, ?_, ?_⟩
  · simp [sortedDesc, keys, emptyBook]
  · simp [sortedAsc, keys, emptyBook]
  · intro pb hpb pa hpa
    simp [keys, emptyBook] at hpb

theorem wf_run (cs : List Cmd) : ∀ b, WF b → WF (runBook b cs) := by
  induction cs with
  | nil => intro b h; exact h
  | cons c cs ih =>
    intro b h
    exact ih _ (wf_step b c h)

theorem foldr_max_mem (l : List Nat) (h : l ≠ []) : l.foldr max 0 ∈ l := by
  induction l with
  | nil => exact absurd rfl h
  | cons a t ih =>
    simp only [List.foldr_cons]
    cases t with
    | nil => simp
    | cons b t2 =>
      rcases le_total a ((b :: t2).foldr max 0) with hle | hle
      · rw [max_eq_right hle]
        exact List.mem_cons_of_mem _ (ih (by simp))
      · rw [max_eq_left hle]
        exact List.mem_cons_self _ _

theorem foldr_min_mem (a : Nat) (l : List Nat) : l.foldr min a ∈ a :: l := by
  induction l with
  | nil => simp
  | cons b t ih =>
    simp only [List.foldr_cons]
    rcases le_total b (t.foldr min a) with hle | hle
    · rw [min_eq_left hle]
      exact List.mem_cons_of_mem _ (List.mem_cons_self _ _)
    · rw [min_eq_right hle]
      rcases List.mem_cons.mp ih with heq | hmem
      · rw [heq]
        exact List.mem_cons_self _ _
      · exact List.mem_cons_of_mem _ (List.mem_cons_of_mem _ hmem)

/-- Claim C2: for every command sequence processed from the empty book, if
both the bid map and the ask map are non-empty then the greatest bid price is
strictly below the least ask price — the book is never crossed at rest. -/
theorem book_never_crossed (cs : List Cmd)
    (hbne : (runBook emptyBook cs).bids ≠ [])
    (hane : (runBook emptyBook cs).asks ≠ []) :
    maxKey (runBook emptyBook cs).bids < minKey (runBook emptyBook cs).asks := by
  rcases wf_run cs emptyBook wf_empty with ⟨hd, ha2, hc⟩
  have hmax : maxKey (runBook emptyBook cs).bids ∈ keys (runBook emptyBook cs).bids := by
    apply foldr_max_mem
    intro hk
    apply hbne
    cases hB : (runBook emptyBook cs).bids with
    | nil => rfl
    | cons hd2 tl =>
      rw [hB] at hk
      simp [keys] at hk
  have hmin : minKey (runBook emptyBook cs).asks ∈ keys (runBook emptyBook cs).asks := by
    cases hA : (runBook emptyBook cs).asks with
    | nil => exact absurd hA hane
    | cons hd2 tl =>
      rcases hd2 with ⟨p, q⟩
      show (keys tl).foldr min p ∈ keys ((p, q) :: tl)
      simp only [keys, List.map_cons]
      exact foldr_min_mem p (List.map Prod.fst tl)
  exact hc _ hmax _ hmin

/-- Witness for book_never_crossed: rest a bid at 99 then an ask at 101. -/
theorem book_never_crossed_wit :
    ((runBook emptyBook [Cmd.order (Order.mk 1 10 Side.bid 99 1 0 Tif.gtc),
        Cmd.order (Order.mk 2 20 Side.ask 101 1 0 Tif.gtc)]).bids ≠ [] ∧
     (runBook emptyBook [Cmd.order (Order.mk 1 10 Side.bid 99 1 0 Tif.gtc),
        Cmd.order (Order.mk 2 20 Side.ask 101 1 0 Tif.gtc)]).asks ≠ [] ∧
     maxKey (runBook emptyBook [Cmd.order (Order.mk 1 10 Side.bid 99 1 0 Tif.gtc),
        Cmd.order (Order.mk 2 20 Side.ask 101 1 0 Tif.gtc)]).bids <
       minKey (runBook emptyBook [Cmd.order (Order.mk 1 10 Side.bid 99 1 0 Tif.gtc),
        Cmd.order (Order.mk 2 20 Side.ask 101 1 0 Tif.gtc)]).asks) :=
  ⟨by decide, by decide, book_never_crossed _ (by decide) (by decide)⟩

/-! ### Claim C1: lemmas on id counting and membership -/

theorem countIdL_cons (o : Order) (q : Level) (i : Nat) :
    countIdL (o :: q) i = (if o.id = i then 1 else 0) + countIdL q i := by
  by_cases h : o.id = i <;> simp [countIdL, List.filter_cons, h, Nat.add_comm]

theorem countIdL_append (q1 q2 : Level) (i : Nat) :
    countIdL (q1 ++ q2) i = countIdL q1 i + countIdL q2 i := by
  simp [countIdL, List.filter_append]

theorem countIdL_pos (q : Level) (o : Order) (i : Nat) (hm : o ∈ q) (hi : o.id = i) :
    1 ≤ countIdL q i := by
  induction q with
  | nil => cases hm
  | cons h2 t ih =>
    rw [countIdL_cons]
    rcases List.mem_cons.mp hm with rfl | hm2
    · simp [hi]
    · have := ih hm2
      omega

theorem countIdL_sublist (q1 q2 : Level) (i : Nat) (h : List.Sublist q1 q2) :
    countIdL q1 i ≤ countIdL q2 i :=
  List.Sublist.length_le (List.Sublist.filter _ h)

theorem countId_cons (px : Nat) (q : Level) (rest : SideBook) (i : Nat) :
    countId ((px, q) :: rest) i = countIdL q i + countId rest i := by
  simp [countId]

theorem countIdL_le_countId (sb : SideBook) (px : Nat) (q : Level) (i : Nat)
    (h : (px, q) ∈ sb) : countIdL q i ≤ countId sb i := by
  induction sb with
  | nil => cases h
  | cons hd rest ih =>
    rcases hd with ⟨k, ql⟩
    rw [countId_cons]
    rcases List.mem_cons.mp h with heq | hm
    · rw [show q = ql from (Prod.mk.injEq _ _ _ _ ▸ heq).2]
      omega
    · have := ih hm
      omega

theorem countId_eraseKey (sb : SideBook) (px i : Nat) :
    countId (eraseKey sb px) i ≤ countId sb i := by
  induction sb with
  | nil => exact Nat.le_refl _
  | cons hd rest ih =>
    rcases hd with ⟨k, ql⟩
    by_cases hk : k = px
    · have h1 : eraseKey ((k, ql) :: rest) px = eraseKey rest px := by
        simp [eraseKey, List.filter_cons, hk]
      rw [h1, countId_cons]
      omega
    · have h1 : eraseKey ((k, ql) :: rest) px = (k, ql) :: eraseKey rest px := by
        simp [eraseKey, List.filter_cons, hk]
      rw [h1, countId_cons, countId_cons]
      omega

theorem setLevel_absent (sb : SideBook) (px : Nat) (q : Level) (h : px ∉ keys sb) :
    setLevel sb px q = sb := by
  induction sb with
  | nil => rfl
  | cons hd rest ih =>
    rcases hd with ⟨k, ql⟩
    simp only [keys, List.map_cons, List.mem_cons, not_or] at h
    have hk : ¬ (k = px) := fun hh => h.1 hh.symm
    simp only [setLevel, List.map_cons, if_neg hk]
    congr 1
    exact ih (by simpa [keys] using h.2)

theorem countId_setLevel_le (sb : SideBook) (px : Nat) (q q2 : Level) (i : Nat)
    (hnd : nodupKeys sb) (hb : bkFind sb px = some q) (hle : countIdL q2 i ≤ countIdL q i) :
    countId (setLevel sb px q2) i ≤ countId sb i := by
  induction sb with
  | nil => exact Nat.le_refl _
  | cons hd rest ih =>
    rcases hd with ⟨k, ql⟩
    simp only [nodupKeys, keys, List.map_cons, List.nodup_cons] at hnd
    by_cases hk : k = px
    · subst hk
      have hql : ql = q := by
        have := hb
        simp only [bkFind, if_pos rfl] at this
        exact Option.some.inj this
      have habs : setLevel rest k q2 = rest := setLevel_absent rest k q2 hnd.1
      simp only [setLevel, List.map_cons, if_pos rfl]
      show countId ((k, q2) :: List.map _ rest) i ≤ countId ((k, ql) :: rest) i
      rw [show List.map (fun e => if e.1 = k then (k, q2) else e) rest = rest from habs]
      rw [countId_cons, countId_cons, hql]
      omega
    · have hb2 : bkFind rest px = some q := by
        have := hb
        simp only [bkFind, if_neg hk] at this
        exact this
      have ih2 := ih hnd.2 hb2
      simp only [setLevel, List.map_cons, if_neg hk]
      show countId ((k, ql) :: List.map _ rest) i ≤ countId ((k, ql) :: rest) i
      rw [countId_cons, countId_cons]
      have : countId (setLevel rest px q2) i ≤ countId rest i := ih2
      simp only [setLevel] at this
      omega

theorem bkFind_of_mem (sb : SideBook) (px : Nat) (q : Level)
    (hnd : nodupKeys sb) (h : (px, q) ∈ sb) : bkFind sb px = some q := by
  induction sb with
  | nil => cases h
  | cons hd rest ih =>
    rcases hd with ⟨k, ql⟩
    simp only [nodupKeys, keys, List.map_cons, List.nodup_cons] at hnd
    rcases List.mem_cons.mp h with heq | hm
    · rw [show k = px from (Prod.mk.injEq _ _ _ _ ▸ heq).1.symm,
        show ql = q from (Prod.mk.injEq _ _ _ _ ▸ heq).2.symm]
      simp [bkFind]
    · have hk : ¬ (k = px) := by
        intro hh
        subst hh
        exact hnd.1 (by
          have : (k, q) ∈ rest := hm
          exact List.mem_map.mpr ⟨(k, q), this, rfl⟩)
      simp only [bkFind, if_neg hk]
      exact ih hnd.2 hm

theorem setLevel_mem (sb : SideBook) (px : Nat) (q2 : Level) (e : Nat × Level)
    (h : e ∈ setLevel sb px q2) : e = (px, q2) ∨ (e ∈ sb ∧ e.1 ≠ px) := by
  rcases List.mem_map.mp h with ⟨e0, he0, heq⟩
  by_cases hk : e0.1 = px
  · left
    rw [← heq]
    simp [hk]
  · right
    constructor
    · rw [← heq]
      simpa [hk] using he0
    · rw [← heq]
      simpa [hk] using hk

theorem eraseKey_mem (sb : SideBook) (px : Nat) (e : Nat × Level)
    (h : e ∈ eraseKey sb px) : e ∈ sb :=
  List.mem_of_mem_filter h

theorem eraseKey_mem_ne (sb : SideBook) (px : Nat) (e : Nat × Level)
    (h : e ∈ eraseKey sb px) : e.1 ≠ px := by
  have := List.of_mem_filter h
  simpa using this

theorem bkFind_mem (sb : SideBook) (px : Nat) (q : Level)
    (h : bkFind sb px = some q) : (px, q) ∈ sb := by
  induction sb with
  | nil => cases h
  | cons hd rest ih =>
    rcases hd with ⟨k, ql⟩
    by_cases hk : k = px
    · subst hk
      simp only [bkFind, if_pos rfl] at h
      rw [← Option.some.inj h]
      exact List.mem_cons_self _ _
    · simp only [bkFind, if_neg hk] at h
      exact List.mem_cons_of_mem _ (ih h)

theorem removeFirstById_sublist (q : Level) (i : Nat) (q2 : Level)
    (h : removeFirstById q i = some q2) : List.Sublist q2 q := by
  induction q generalizing q2 with
  | nil => cases h
  | cons o rest ih =>
    by_cases ho : o.id = i
    · simp only [removeFirstById, if_pos ho] at h
      rw [← Option.some.inj h]
      exact List.sublist_cons_self o rest
    · simp only [removeFirstById, if_neg ho] at h
      cases hr : removeFirstById rest i with
      | none => rw [hr] at h; cases h
      | some r =>
        rw [hr] at h
        rw [← Option.some.inj h]
        exact List.Sublist.cons₂ o (ih r hr)

theorem removeFirstById_count (q : Level) (i : Nat) (q2 : Level)
    (h : removeFirstById q i = some q2) : countIdL q2 i + 1 = countIdL q i := by
  induction q generalizing q2 with
  | nil => cases h
  | cons o rest ih =>
    by_cases ho : o.id = i
    · simp only [removeFirstById, if_pos ho] at h
      rw [← Option.some.inj h, countIdL_cons, if_pos ho]
      omega
    · simp only [removeFirstById, if_neg ho] at h
      cases hr : removeFirstById rest i with
      | none => rw [hr] at h; cases h
      | some r =>
        rw [hr] at h
        rw [← Option.some.inj h, countIdL_cons, countIdL_cons, if_neg ho]
        have := ih r hr
        omega

theorem removeFirstById_none (q : Level) (i : Nat)
    (h : removeFirstById q i = none) : ∀ o ∈ q, o.id ≠ i := by
  induction q with
  | nil => intro o ho; cases ho
  | cons o2 rest ih =>
    intro o ho
    by_cases ho2 : o2.id = i
    · simp [removeFirstById, ho2] at h
    · simp only [removeFirstById, if_neg ho2] at h
      cases hr : removeFirstById rest i with
      | none =>
        rcases List.mem_cons.mp ho with rfl | hm
        · exact ho2
        · exact ih hr o hm
      | some r => rw [hr] at h; cases h

theorem countIdL_singleton (o : Order) (i : Nat) :
    countIdL [o] i = if o.id = i then 1 else 0 := by
  rw [countIdL_cons]
  simp [countIdL]

theorem countIdL_matchLevel (rem : Nat) (q : Level) (i : Nat) :
    countIdL (matchLevel rem q).2.1 i ≤ countIdL q i := by
  induction q generalizing rem with
  | nil => simp [matchLevel]
  | cons front rest ih =>
    by_cases h0 : rem = 0
    · simp [matchLevel, h0]
    · rw [matchLevel_cons rem front rest h0]
      by_cases hle : front.qty ≤ rem
      · rw [if_pos hle]
        show countIdL (matchLevel (rem - front.qty) rest).2.1 i ≤ countIdL (front :: rest) i
        rw [countIdL_cons]
        have := ih (rem - front.qty)
        omega
      · rw [if_neg hle]
        show countIdL ({ front with qty := front.qty - rem } :: rest) i ≤
          countIdL (front :: rest) i
        rw [countIdL_cons, countIdL_cons]

theorem matchLevel_id_mem (rem : Nat) (q : Level) (o2 : Order)
    (h : o2 ∈ (matchLevel rem q).2.1) : ∃ o ∈ q, o2.id = o.id := by
  induction q generalizing rem with
  | nil => simp [matchLevel] at h
  | cons front rest ih =>
    by_cases h0 : rem = 0
    · simp only [matchLevel, if_pos h0, reduceIte] at h
      exact ⟨o2, by simpa [h0] using h, rfl⟩
    · rw [matchLevel_cons rem front rest h0] at h
      by_cases hle : front.qty ≤ rem
      · rw [if_pos hle] at h
        rcases ih (rem - front.qty) h with ⟨o, ho, hid⟩
        exact ⟨o, List.mem_cons_of_mem _ ho, hid⟩
      · rw [if_neg hle] at h
        rcases List.mem_cons.mp h with rfl | hm
        · exact ⟨front, List.mem_cons_self _ _, rfl⟩
        · exact ⟨o2, List.mem_cons_of_mem _ hm, rfl⟩

theorem countId_matchLoop (pOk : Nat → Bool) (cl : Nat) (opp : Side) :
    ∀ rem sb i, countId (matchLoop pOk cl opp rem sb).2.1 i ≤ countId sb i := by
  intro rem sb
  induction sb generalizing rem with
  | nil => intro i; simp [matchLoop]
  | cons hd rest ih =>
    rcases hd with ⟨px, q⟩
    intro i
    by_cases h0 : rem = 0
    · subst h0
      rw [matchLoop_zero]
    · rcases hpo : pOk px with _ | _
      · rw [matchLoop_skip pOk cl opp rem px q rest h0 hpo]
      · rw [matchLoop_stop pOk cl opp rem px q rest h0 hpo]
        by_cases hq2 : (matchLevel rem q).2.1 = []
        · rw [if_pos hq2]
          show countId (matchLoop pOk cl opp (matchLevel rem q).1 rest).2.1 i ≤
            countId ((px, q) :: rest) i
          rw [countId_cons]
          have := ih (matchLevel rem q).1 i
          omega
        · rw [if_neg hq2]
          show countId ((px, (matchLevel rem q).2.1) :: rest) i ≤ countId ((px, q) :: rest) i
          rw [countId_cons, countId_cons]
          have := countIdL_matchLevel rem q i
          omega

theorem matchLoop_level_mem (pOk : Nat → Bool) (cl : Nat) (opp : Side) :
    ∀ rem sb px2 q2 o2, (px2, q2) ∈ (matchLoop pOk cl opp rem sb).2.1 → o2 ∈ q2 →
      ∃ q o, (px2, q) ∈ sb ∧ o ∈ q ∧ o2.id = o.id := by
  intro rem sb
  induction sb generalizing rem with
  | nil => intro px2 q2 o2 hm _; simp [matchLoop] at hm
  | cons hd rest ih =>
    rcases hd with ⟨px, q⟩
    intro px2 q2 o2 hm ho
    by_cases h0 : rem = 0
    · subst h0
      rw [matchLoop_zero] at hm
      exact ⟨q2, o2, hm, ho, rfl⟩
    · rcases hpo : pOk px with _ | _
      · rw [matchLoop_skip pOk cl opp rem px q rest h0 hpo] at hm
        exact ⟨q2, o2, hm, ho, rfl⟩
      · rw [matchLoop_stop pOk cl opp rem px q rest h0 hpo] at hm
        by_cases hq2 : (matchLevel rem q).2.1 = []
        · rw [if_pos hq2] at hm
          rcases ih (matchLevel rem q).1 px2 q2 o2 hm ho with ⟨ql, o, hql, hol, hid⟩
          exact ⟨ql, o, List.mem_cons_of_mem _ hql, hol, hid⟩
        · rw [if_neg hq2] at hm
          rcases List.mem_cons.mp hm with heq | hm2
          · have hpx : px2 = px := (Prod.mk.injEq _ _ _ _ ▸ heq).1
            have hq : q2 = (matchLevel rem q).2.1 := (Prod.mk.injEq _ _ _ _ ▸ heq).2
            rcases matchLevel_id_mem rem q o2 (hq ▸ ho) with ⟨o, hoq, hid⟩
            exact ⟨q, o, by rw [hpx]; exact List.mem_cons_self _ _, hoq, hid⟩
          · exact ⟨q2, o2, List.mem_cons_of_mem _ hm2, ho, rfl⟩

theorem countId_insDesc (sb : SideBook) (px : Nat) (o : Order) (i : Nat) :
    countId (insDesc sb px o) i = countId sb i + (if o.id = i then 1 else 0) := by
  induction sb with
  | nil => by_cases h : o.id = i <;> simp [insDesc, countId, countIdL, h]
  | cons hd rest ih =>
    rcases hd with ⟨k, ql⟩
    by_cases h1 : px > k
    · simp only [insDesc, if_pos h1, countId_cons]
      rw [countIdL_singleton]
      omega
    · by_cases h2 : px = k
      · simp only [insDesc, if_neg h1, if_pos h2, countId_cons, countIdL_append]
        rw [countIdL_singleton]
        omega
      · simp only [insDesc, if_neg h1, if_neg h2, countId_cons, ih]
        omega

theorem countId_insAsc (sb : SideBook) (px : Nat) (o : Order) (i : Nat) :
    countId (insAsc sb px o) i = countId sb i + (if o.id = i then 1 else 0) := by
  induction sb with
  | nil => by_cases h : o.id = i <;> simp [insAsc, countId, countIdL, h]
  | cons hd rest ih =>
    rcases hd with ⟨k, ql⟩
    by_cases h1 : px < k
    · simp only [insAsc, if_pos h1, countId_cons]
      rw [countIdL_singleton]
      omega
    · by_cases h2 : px = k
      · simp only [insAsc, if_neg h1, if_pos h2, countId_cons, countIdL_append]
        rw [countIdL_singleton]
        omega
      · simp only [insAsc, if_neg h1, if_neg h2, countId_cons, ih]
        omega

theorem insDesc_mem (sb : SideBook) (px : Nat) (o : Order) :
    ∀ px2 q2 o2, (px2, q2) ∈ insDesc sb px o → o2 ∈ q2 →
      (o2 = o ∧ px2 = px) ∨ ∃ q, (px2, q) ∈ sb ∧ o2 ∈ q := by
  induction sb with
  | nil =>
    intro px2 q2 o2 hm ho
    simp only [insDesc, List.mem_singleton] at hm
    have hpx : px2 = px := (Prod.mk.injEq _ _ _ _ ▸ hm).1
    have hq : q2 = [o] := (Prod.mk.injEq _ _ _ _ ▸ hm).2
    left
    exact ⟨by simpa [hq] using ho, hpx⟩
  | cons hd rest ih =>
    rcases hd with ⟨k, ql⟩
    intro px2 q2 o2 hm ho
    by_cases h1 : px > k
    · simp only [insDesc, if_pos h1, List.mem_cons] at hm
      rcases hm with heq | hm2
      · have hpx : px2 = px := (Prod.mk.injEq _ _ _ _ ▸ heq).1
        have hq : q2 = [o] := (Prod.mk.injEq _ _ _ _ ▸ heq).2
        left
        exact ⟨by simpa [hq] using ho, hpx⟩
      · right
        exact ⟨q2, List.mem_cons.mpr hm2, ho⟩
    · by_cases h2 : px = k
      · simp only [insDesc, if_neg h1, if_pos h2, List.mem_cons] at hm
        rcases hm with heq | hm2
        · have hpx : px2 = k := (Prod.mk.injEq _ _ _ _ ▸ heq).1
          have hq : q2 = ql ++ [o] := (Prod.mk.injEq _ _ _ _ ▸ heq).2
          rcases List.mem_append.mp (hq ▸ ho) with hin | hin
          · right
            exact ⟨ql, by rw [hpx]; exact List.mem_cons_self _ _, hin⟩
          · left
            exact ⟨by simpa using hin, by omega⟩
        · right
          exact ⟨q2, List.mem_cons_of_mem _ hm2, ho⟩
      · simp only [insDesc, if_neg h1, if_neg h2, List.mem_cons] at hm
        rcases hm with heq | hm2
        · right
          exact ⟨q2, List.mem_cons.mpr (Or.inl heq), ho⟩
        · rcases ih px2 q2 o2 hm2 ho with hl | ⟨q3, hq3, ho3⟩
          · exact Or.inl hl
          · exact Or.inr ⟨q3, List.mem_cons_of_mem _ hq3, ho3⟩

theorem insAsc_mem (sb : SideBook) (px : Nat) (o : Order) :
    ∀ px2 q2 o2, (px2, q2) ∈ insAsc sb px o → o2 ∈ q2 →
      (o2 = o ∧ px2 = px) ∨ ∃ q, (px2, q) ∈ sb ∧ o2 ∈ q := by
  induction sb with
  | nil =>
    intro px2 q2 o2 hm ho
    simp only [insAsc, List.mem_singleton] at hm
    have hpx : px2 = px := (Prod.mk.injEq _ _ _ _ ▸ hm).1
    have hq : q2 = [o] := (Prod.mk.injEq _ _ _ _ ▸ hm).2
    left
    exact ⟨by simpa [hq] using ho, hpx⟩
  | cons hd rest ih =>
    rcases hd with ⟨k, ql⟩
    intro px2 q2 o2 hm ho
    by_cases h1 : px < k
    · simp only [insAsc, if_pos h1, List.mem_cons] at hm
      rcases hm with heq | hm2
      · have hpx : px2 = px := (Prod.mk.injEq _ _ _ _ ▸ heq).1
        have hq : q2 = [o] := (Prod.mk.injEq _ _ _ _ ▸ heq).2
        left
        exact ⟨by simpa [hq] using ho, hpx⟩
      · right
        exact ⟨q2, List.mem_cons.mpr hm2, ho⟩
    · by_cases h2 : px = k
      · simp only [insAsc, if_neg h1, if_pos h2, List.mem_cons] at hm
        rcases hm with heq | hm2
        · have hpx : px2 = k := (Prod.mk.injEq _ _ _ _ ▸ heq).1
          have hq : q2 = ql ++ [o] := (Prod.mk.injEq _ _ _ _ ▸ heq).2
          rcases List.mem_append.mp (hq ▸ ho) with hin | hin
          · right
            exact ⟨ql, by rw [hpx]; exact List.mem_cons_self _ _, hin⟩
          · left
            exact ⟨by simpa using hin, by omega⟩
        · right
          exact ⟨q2, List.mem_cons_of_mem _ hm2, ho⟩
      · simp only [insAsc, if_neg h1, if_neg h2, List.mem_cons] at hm
        rcases hm with heq | hm2
        · right
          exact ⟨q2, List.mem_cons.mpr (Or.inl heq), ho⟩
        · rcases ih px2 q2 o2 hm2 ho with hl | ⟨q3, hq3, ho3⟩
          · exact Or.inl hl
          · exact Or.inr ⟨q3, List.mem_cons_of_mem _ hq3, ho3⟩

/-- Invariant preservation of handle_new: with a fresh order id, every resting
order keeps a correct lookup entry, ids still rest at most once, and resting
ids stay inside the used set extended by the new id. -/
theorem inv_handleNew (o : Order) (b : OrderBook) (used : List Nat)
    (hs : LookupSound b) (ho : IdsOnce b) (hu : IdsUsed b used) (hfresh : o.id ∉ used) :
    LookupSound (handleNew o b).1 ∧ IdsOnce (handleNew o b).1 ∧
      IdsUsed (handleNew o b).1 (o.id :: used) := by
  have hobid : countId b.bids o.id = 0 := by
    by_contra hx
    exact hfresh (hu o.id (by show 1 ≤ countId b.bids o.id + countId b.asks o.id; omega))
  have hoask : countId b.asks o.id = 0 := by
    by_contra hx
    exact hfresh (hu o.id (by show 1 ≤ countId b.bids o.id + countId b.asks o.id; omega))
  unfold handleNew
  cases hside : o.side with
  | bid =>
    rcases hm : matchLoop (fun apx => decide (apx ≤ o.price)) o.cl_id Side.ask o.qty b.asks
      with ⟨rem, asks2, mevs⟩
    have hcnt : ∀ i, countId asks2 i ≤ countId b.asks i := by
      intro i
      have hh := countId_matchLoop (fun apx => decide (apx ≤ o.price)) o.cl_id Side.ask
        o.qty b.asks i
      rw [hm] at hh
      exact hh
    have hmem : ∀ px2 q2 o2, (px2, q2) ∈ asks2 → o2 ∈ q2 →
        ∃ q om, (px2, q) ∈ b.asks ∧ om ∈ q ∧ o2.id = om.id := by
      intro px2 q2 o2 h1 h2
      exact matchLoop_level_mem (fun apx => decide (apx ≤ o.price)) o.cl_id Side.ask
        o.qty b.asks px2 q2 o2 (by rw [hm]; exact h1) h2
    by_cases hrest : 0 < rem ∧ o.tif = Tif.gtc
    · simp only [hrest, and_self, if_true, reduceIte]
      refine ⟨⟨?_, ?_⟩, ?_, ?_⟩
      · intro px2 q2 o2 hq2 ho2
        rcases insDesc_mem b.bids o.price _ px2 q2 o2 hq2 ho2 with ⟨rfl, rfl⟩ | ⟨q3, hq3, ho3⟩
        · show lkFind (lkInsert b.lookup o.id (Side.bid, o.price))
            ({ o with qty := rem } : Order).id = some (Side.bid, o.price)
          exact lkFind_insert_self b.lookup o.id (Side.bid, o.price)
        · have hsOld := hs.1 px2 q3 o2 hq3 ho3
          have hne : o2.id ≠ o.id := by
            intro he
            have h1 : 1 ≤ countIdL q3 o2.id := countIdL_pos q3 o2 o2.id ho3 rfl
            have h2 : countIdL q3 o2.id ≤ countId b.bids o2.id :=
              countIdL_le_countId b.bids px2 q3 o2.id hq3
            rw [he] at h1 h2
            omega
          rw [lkFind_insert_ne b.lookup o.id o2.id _ hne]
          exact hsOld
      · intro px2 q2 o2 hq2 ho2
        rcases hmem px2 q2 o2 hq2 ho2 with ⟨q3, om, hq3, hom, hid⟩
        have hsOld := hs.2 px2 q3 om hq3 hom
        have hne : o2.id ≠ o.id := by
          intro he
          have h1 : 1 ≤ countIdL q3 om.id := countIdL_pos q3 om om.id hom rfl
          have h2 : countIdL q3 om.id ≤ countId b.asks om.id :=
            countIdL_le_countId b.asks px2 q3 om.id hq3
          rw [← hid, he] at h1 h2
          omega
        rw [lkFind_insert_ne b.lookup o.id o2.id _ hne, hid]
        exact hsOld
      · intro i
        show countId (insDesc b.bids o.price
          { id := o.id, cl_id := o.cl_id, side := Side.bid, price := o.price, qty := rem,
            timestamp := o.timestamp, tif := Tif.gtc }) i + countId asks2 i ≤ 1
        rw [countId_insDesc]
        by_cases hi : i = o.id
        · rw [if_pos hi.symm]
          have h3 := hcnt i
          have h4 : countId b.bids i = 0 := by rw [hi]; exact hobid
          have h5 : countId b.asks i = 0 := by rw [hi]; exact hoask
          omega
        · rw [if_neg (fun hh => hi hh.symm)]
          have h1 := hcnt i
          have h2 : countId b.bids i + countId b.asks i ≤ 1 := ho i
          omega
      · intro i h1
        have h1' : 1 ≤ countId (insDesc b.bids o.price
          { id := o.id, cl_id := o.cl_id, side := Side.bid, price := o.price, qty := rem,
            timestamp := o.timestamp, tif := Tif.gtc }) i + countId asks2 i := h1
        rw [countId_insDesc] at h1'
        by_cases hi : i = o.id
        · rw [hi]
          exact List.mem_cons_self _ _
        · have h2 : 1 ≤ countId b.bids i + countId b.asks i := by
            have h3 := hcnt i
            rw [if_neg (fun hh => hi hh.symm)] at h1'
            omega
          exact List.mem_cons_of_mem _ (hu i h2)
    · simp only [hrest, if_false, reduceIte]
      refine ⟨⟨?_, ?_⟩, ?_, ?_⟩
      · intro px2 q2 o2 hq2 ho2
        exact hs.1 px2 q2 o2 hq2 ho2
      · intro px2 q2 o2 hq2 ho2
        rcases hmem px2 q2 o2 hq2 ho2 with ⟨q3, om, hq3, hom, hid⟩
        rw [hid]
        exact hs.2 px2 q3 om hq3 hom
      · intro i
        have h1 := hcnt i
        have h2 : countId b.bids i + countId b.asks i ≤ 1 := ho i
        show countId b.bids i + countId asks2 i ≤ 1
        omega
      · intro i h1
        have h1' : 1 ≤ countId b.bids i + countId asks2 i := h1
        have h3 := hcnt i
        exact List.mem_cons_of_mem _
          (hu i (by show 1 ≤ countId b.bids i + countId b.asks i; omega))
  | ask =>
    rcases hm : matchLoop (fun bpx => decide (o.price ≤ bpx)) o.cl_id Side.bid o.qty b.bids
      with ⟨rem, bids2, mevs⟩
    have hcnt : ∀ i, countId bids2 i ≤ countId b.bids i := by
      intro i
      have hh := countId_matchLoop (fun bpx => decide (o.price ≤ bpx)) o.cl_id Side.bid
        o.qty b.bids i
      rw [hm] at hh
      exact hh
    have hmem : ∀ px2 q2 o2, (px2, q2) ∈ bids2 → o2 ∈ q2 →
        ∃ q om, (px2, q) ∈ b.bids ∧ om ∈ q ∧ o2.id = om.id := by
      intro px2 q2 o2 h1 h2
      exact matchLoop_level_mem (fun bpx => decide (o.price ≤ bpx)) o.cl_id Side.bid
        o.qty b.bids px2 q2 o2 (by rw [hm]; exact h1) h2
    by_cases hrest : 0 < rem ∧ o.tif = Tif.gtc
    · simp only [hrest, and_self, if_true, reduceIte]
      refine ⟨⟨?_, ?_⟩, ?_, ?_⟩
      · intro px2 q2 o2 hq2 ho2
        rcases hmem px2 q2 o2 hq2 ho2 with ⟨q3, om, hq3, hom, hid⟩
        have hsOld := hs.1 px2 q3 om hq3 hom
        have hne : o2.id ≠ o.id := by
          intro he
          have h1 : 1 ≤ countIdL q3 om.id := countIdL_pos q3 om om.id hom rfl
          have h2 : countIdL q3 om.id ≤ countId b.bids om.id :=
            countIdL_le_countId b.bids px2 q3 om.id hq3
          rw [← hid, he] at h1 h2
          omega
        rw [lkFind_insert_ne b.lookup o.id o2.id _ hne, hid]
        exact hsOld
      · intro px2 q2 o2 hq2 ho2
        rcases insAsc_mem b.asks o.price _ px2 q2 o2 hq2 ho2 with ⟨rfl, rfl⟩ | ⟨q3, hq3, ho3⟩
        · show lkFind (lkInsert b.lookup o.id (Side.ask, o.price))
            ({ o with qty := rem } : Order).id = some (Side.ask, o.price)
          exact lkFind_insert_self b.lookup o.id (Side.ask, o.price)
        · have hsOld := hs.2 px2 q3 o2 hq3 ho3
          have hne : o2.id ≠ o.id := by
            intro he
            have h1 : 1 ≤ countIdL q3 o2.id := countIdL_pos q3 o2 o2.id ho3 rfl
            have h2 : countIdL q3 o2.id ≤ countId b.asks o2.id :=
              countIdL_le_countId b.asks px2 q3 o2.id hq3
            rw [he] at h1 h2
            omega
          rw [lkFind_insert_ne b.lookup o.id o2.id _ hne]
          exact hsOld
      · intro i
        show countId bids2 i + countId (insAsc b.asks o.price
          { id := o.id, cl_id := o.cl_id, side := Side.ask, price := o.price, qty := rem,
            timestamp := o.timestamp, tif := Tif.gtc }) i ≤ 1
        rw [countId_insAsc]
        by_cases hi : i = o.id
        · rw [if_pos hi.symm]
          have h3 := hcnt i
          have h4 : countId b.bids i = 0 := by rw [hi]; exact hobid
          have h5 : countId b.asks i = 0 := by rw [hi]; exact hoask
          omega
        · rw [if_neg (fun hh => hi hh.symm)]
          have h1 := hcnt i
          have h2 : countId b.bids i + countId b.asks i ≤ 1 := ho i
          omega
      · intro i h1
        have h1' : 1 ≤ countId bids2 i + countId (insAsc b.asks o.price
          { id := o.id, cl_id := o.cl_id, side := Side.ask, price := o.price, qty := rem,
            timestamp := o.timestamp, tif := Tif.gtc }) i := h1
        rw [countId_insAsc] at h1'
        by_cases hi : i = o.id
        · rw [hi]
          exact List.mem_cons_self _ _
        · have h2 : 1 ≤ countId b.bids i + countId b.asks i := by
            have h3 := hcnt i
            rw [if_neg (fun hh => hi hh.symm)] at h1'
            omega
          exact List.mem_cons_of_mem _ (hu i h2)
    · simp only [hrest, if_false, reduceIte]
      refine ⟨⟨?_, ?_⟩, ?_, ?_⟩
      · intro px2 q2 o2 hq2 ho2
        rcases hmem px2 q2 o2 hq2 ho2 with ⟨q3, om, hq3, hom, hid⟩
        rw [hid]
        exact hs.1 px2 q3 om hq3 hom
      · intro px2 q2 o2 hq2 ho2
        exact hs.2 px2 q2 o2 hq2 ho2
      · intro i
        have h1 := hcnt i
        have h2 : countId b.bids i + countId b.asks i ≤ 1 := ho i
        show countId bids2 i + countId b.asks i ≤ 1
        omega
      · intro i h1
        have h1' : 1 ≤ countId bids2 i + countId b.asks i := h1
        have h3 := hcnt i
        exact List.mem_cons_of_mem _
          (hu i (by show 1 ≤ countId b.bids i + countId b.asks i; omega))

/-- Invariant preservation of handle_cancel: resting orders keep correct
lookup entries (the id removed from lookup no longer rests afterwards), ids
still rest at most once, and resting ids stay inside the used set. -/
theorem inv_handleCancel (i : Nat) (b : OrderBook) (used : List Nat)
    (hwf : WF b) (hs : LookupSound b) (ho : IdsOnce b) (hu : IdsUsed b used) :
    LookupSound (handleCancel i b).1 ∧ IdsOnce (handleCancel i b).1 ∧
      IdsUsed (handleCancel i b).1 used := by
  have hndb : nodupKeys b.bids := List.Pairwise.imp (fun hab => Nat.ne_of_gt hab) hwf.1
  have hnda : nodupKeys b.asks := List.Pairwise.imp (fun hab => Nat.ne_of_lt hab) hwf.2.1
  unfold handleCancel
  cases hl : lkFind b.lookup i with
  | none => exact ⟨hs, ho, hu⟩
  | some sp =>
    rcases sp with ⟨side, px⟩
    cases side with
    | bid =>
      cases hb : bkFind b.bids px with
      | none =>
        simp only [hl, hb]
        refine ⟨⟨?_, ?_⟩, ho, hu⟩
        · intro px2 q2 o2 hq2 ho2
          have hid_ne : o2.id ≠ i := by
            intro he
            have h1 := hs.1 px2 q2 o2 hq2 ho2
            rw [he, hl] at h1
            have h2 := Option.some.inj h1
            have hpx : px2 = px := ((Prod.mk.injEq _ _ _ _ ▸ h2).2).symm
            rw [hpx] at hq2
            have h3 := bkFind_of_mem b.bids px q2 hndb hq2
            rw [hb] at h3
            cases h3
          rw [lkFind_erase_ne b.lookup i o2.id hid_ne]
          exact hs.1 px2 q2 o2 hq2 ho2
        · intro px2 q2 o2 hq2 ho2
          have hid_ne : o2.id ≠ i := by
            intro he
            have h1 := hs.2 px2 q2 o2 hq2 ho2
            rw [he, hl] at h1
            have h2 := Option.some.inj h1
            cases (Prod.mk.injEq _ _ _ _ ▸ h2).1
          rw [lkFind_erase_ne b.lookup i o2.id hid_ne]
          exact hs.2 px2 q2 o2 hq2 ho2
      | some q =>
        cases hr : removeFirstById q i with
        | none =>
          simp only [hl, hb, hr]
          refine ⟨⟨?_, ?_⟩, ho, hu⟩
          · intro px2 q2 o2 hq2 ho2
            have hid_ne : o2.id ≠ i := by
              intro he
              have h1 := hs.1 px2 q2 o2 hq2 ho2
              rw [he, hl] at h1
              have h2 := Option.some.inj h1
              have hpx : px2 = px := ((Prod.mk.injEq _ _ _ _ ▸ h2).2).symm
              rw [hpx] at hq2
              have h3 := bkFind_of_mem b.bids px q2 hndb hq2
              rw [hb] at h3
              have hq : q2 = q := (Option.some.inj h3).symm
              exact removeFirstById_none q i hr o2 (hq ▸ ho2) he
            rw [lkFind_erase_ne b.lookup i o2.id hid_ne]
            exact hs.1 px2 q2 o2 hq2 ho2
          · intro px2 q2 o2 hq2 ho2
            have hid_ne : o2.id ≠ i := by
              intro he
              have h1 := hs.2 px2 q2 o2 hq2 ho2
              rw [he, hl] at h1
              have h2 := Option.some.inj h1
              cases (Prod.mk.injEq _ _ _ _ ▸ h2).1
            rw [lkFind_erase_ne b.lookup i o2.id hid_ne]
            exact hs.2 px2 q2 o2 hq2 ho2
        | some q2 =>
          have hsub : List.Sublist q2 q := removeFirstById_sublist q i q2 hr
          have hcnt_e : countIdL q2 i + 1 = countIdL q i := removeFirstById_count q i q2 hr
          have hqmem : (px, q) ∈ b.bids := bkFind_mem b.bids px q hb
          have hnotwice : ∀ o2 : Order, o2 ∈ q2 → o2.id ≠ i := by
            intro o2 ho2 he
            have h1 : 1 ≤ countIdL q2 o2.id := countIdL_pos q2 o2 o2.id ho2 rfl
            rw [he] at h1
            have h2 : countIdL q i ≤ countId b.bids i := countIdL_le_countId b.bids px q i hqmem
            have h3 : countId b.bids i + countId b.asks i ≤ 1 := ho i
            omega
          have hsound1 : ∀ px2 q3 o2, (px2, q3) ∈ (if q2 = [] then eraseKey b.bids px
              else setLevel b.bids px q2) → o2 ∈ q3 →
              lkFind (lkErase b.lookup i) o2.id = some (Side.bid, px2) := by
            intro px2 q3 o2 hq3 ho2
            by_cases hq2e : q2 = []
            · rw [if_pos hq2e] at hq3
              have hne_px : px2 ≠ px := eraseKey_mem_ne b.bids px (px2, q3) hq3
              have hmem2 : (px2, q3) ∈ b.bids := eraseKey_mem b.bids px (px2, q3) hq3
              have hid_ne : o2.id ≠ i := by
                intro he
                have h1 := hs.1 px2 q3 o2 hmem2 ho2
                rw [he, hl] at h1
                exact hne_px ((Prod.mk.injEq _ _ _ _ ▸ Option.some.inj h1).2).symm
              rw [lkFind_erase_ne b.lookup i o2.id hid_ne]
              exact hs.1 px2 q3 o2 hmem2 ho2
            · rw [if_neg hq2e] at hq3
              rcases setLevel_mem b.bids px q2 (px2, q3) hq3 with heq | ⟨hmem2, hne_px⟩
              · have hpx : px2 = px := (Prod.mk.injEq _ _ _ _ ▸ heq).1
                have hq3e : q3 = q2 := (Prod.mk.injEq _ _ _ _ ▸ heq).2
                have ho2q : o2 ∈ q := hsub.subset (hq3e ▸ ho2)
                have hid_ne : o2.id ≠ i := hnotwice o2 (hq3e ▸ ho2)
                rw [lkFind_erase_ne b.lookup i o2.id hid_ne, hpx]
                exact hs.1 px q o2 hqmem ho2q
              · have hid_ne : o2.id ≠ i := by
                  intro he
                  have h1 := hs.1 px2 q3 o2 hmem2 ho2
                  rw [he, hl] at h1
                  exact hne_px ((Prod.mk.injEq _ _ _ _ ▸ Option.some.inj h1).2).symm
                rw [lkFind_erase_ne b.lookup i o2.id hid_ne]
                exact hs.1 px2 q3 o2 hmem2 ho2
          have hcnt1 : ∀ j, countId (if q2 = [] then eraseKey b.bids px
              else setLevel b.bids px q2) j ≤ countId b.bids j := by
            intro j
            by_cases hq2e : q2 = []
            · rw [if_pos hq2e]
              exact countId_eraseKey b.bids px j
            · rw [if_neg hq2e]
              exact countId_setLevel_le b.bids px q q2 j hndb hb
                (countIdL_sublist q2 q j hsub)
          by_cases hq2e : q2 = []
          · simp only [hl, hb, hr, hq2e, if_pos, reduceIte]
            refine ⟨⟨?_, ?_⟩, ?_, ?_⟩
            · intro px2 q3 o2 hq3 ho2
              exact hsound1 px2 q3 o2 (by rw [if_pos hq2e]; exact hq3) ho2
            · intro px2 q3 o2 hq3 ho2
              have hid_ne : o2.id ≠ i := by
                intro he
                have h1 := hs.2 px2 q3 o2 hq3 ho2
                rw [he, hl] at h1
                cases (Prod.mk.injEq _ _ _ _ ▸ Option.some.inj h1).1
              rw [lkFind_erase_ne b.lookup i o2.id hid_ne]
              exact hs.2 px2 q3 o2 hq3 ho2
            · intro j
              show countId (eraseKey b.bids px) j + countId b.asks j ≤ 1
              have h1 := countId_eraseKey b.bids px j
              have h2 : countId b.bids j + countId b.asks j ≤ 1 := ho j
              omega
            · intro j hj
              have hj' : 1 ≤ countId (eraseKey b.bids px) j + countId b.asks j := hj
              have h1 := countId_eraseKey b.bids px j
              exact hu j (by show 1 ≤ countId b.bids j + countId b.asks j; omega)
          · simp only [hl, hb, hr, hq2e, if_neg, reduceIte]
            refine ⟨⟨?_, ?_⟩, ?_, ?_⟩
            · intro px2 q3 o2 hq3 ho2
              exact hsound1 px2 q3 o2 (by rw [if_neg hq2e]; exact hq3) ho2
            · intro px2 q3 o2 hq3 ho2
              have hid_ne : o2.id ≠ i := by
                intro he
                have h1 := hs.2 px2 q3 o2 hq3 ho2
                rw [he, hl] at h1
                cases (Prod.mk.injEq _ _ _ _ ▸ Option.some.inj h1).1
              rw [lkFind_erase_ne b.lookup i o2.id hid_ne]
              exact hs.2 px2 q3 o2 hq3 ho2
            · intro j
              show countId (setLevel b.bids px q2) j + countId b.asks j ≤ 1
              have h1 := countId_setLevel_le b.bids px q q2 j hndb hb
                (countIdL_sublist q2 q j hsub)
              have h2 : countId b.bids j + countId b.asks j ≤ 1 := ho j
              omega
            · intro j hj
              have hj' : 1 ≤ countId (setLevel b.bids px q2) j + countId b.asks j := hj
              have h1 := countId_setLevel_le b.bids px q q2 j hndb hb
                (countIdL_sublist q2 q j hsub)
              exact hu j (by show 1 ≤ countId b.bids j + countId b.asks j; omega)
    | ask =>
      cases hb : bkFind b.asks px with
      | none =>
        simp only [hl, hb]
        refine ⟨⟨?_, ?_⟩, ho, hu⟩
        · intro px2 q2 o2 hq2 ho2
          have hid_ne : o2.id ≠ i := by
            intro he
            have h1 := hs.1 px2 q2 o2 hq2 ho2
            rw [he, hl] at h1
            have h2 := Option.some.inj h1
            cases (Prod.mk.injEq _ _ _ _ ▸ h2).1
          rw [lkFind_erase_ne b.lookup i o2.id hid_ne]
          exact hs.1 px2 q2 o2 hq2 ho2
        · intro px2 q2 o2 hq2 ho2
          have hid_ne : o2.id ≠ i := by
            intro he
            have h1 := hs.2 px2 q2 o2 hq2 ho2
            rw [he, hl] at h1
            have h2 := Option.some.inj h1
            have hpx : px2 = px := ((Prod.mk.injEq _ _ _ _ ▸ h2).2).symm
            rw [hpx] at hq2
            have h3 := bkFind_of_mem b.asks px q2 hnda hq2
            rw [hb] at h3
            cases h3
          rw [lkFind_erase_ne b.lookup i o2.id hid_ne]
          exact hs.2 px2 q2 o2 hq2 ho2
      | some q =>
        cases hr : removeFirstById q i with
        | none =>
          simp only [hl, hb, hr]
          refine ⟨⟨?_, ?_⟩, ho, hu⟩
          · intro px2 q2 o2 hq2 ho2
            have hid_ne : o2.id ≠ i := by
              intro he
              have h1 := hs.1 px2 q2 o2 hq2 ho2
              rw [he, hl] at h1
              have h2 := Option.some.inj h1
              cases (Prod.mk.injEq _ _ _ _ ▸ h2).1
            rw [lkFind_erase_ne b.lookup i o2.id hid_ne]
            exact hs.1 px2 q2 o2 hq2 ho2
          · intro px2 q2 o2 hq2 ho2
            have hid_ne : o2.id ≠ i := by
              intro he
              have h1 := hs.2 px2 q2 o2 hq2 ho2
              rw [he, hl] at h1
              have h2 := Option.some.inj h1
              have hpx : px2 = px := ((Prod.mk.injEq _ _ _ _ ▸ h2).2).symm
              rw [hpx] at hq2
              have h3 := bkFind_of_mem b.asks px q2 hnda hq2
              rw [hb] at h3
              have hq : q2 = q := (Option.some.inj h3).symm
              exact removeFirstById_none q i hr o2 (hq ▸ ho2) he
            rw [lkFind_erase_ne b.lookup i o2.id hid_ne]
            exact hs.2 px2 q2 o2 hq2 ho2
        | some q2 =>
          have hsub : List.Sublist q2 q := removeFirstById_sublist q i q2 hr
          have hcnt_e : countIdL q2 i + 1 = countIdL q i := removeFirstById_count q i q2 hr
          have hqmem : (px, q) ∈ b.asks := bkFind_mem b.asks px q hb
          have hnotwice : ∀ o2 : Order, o2 ∈ q2 → o2.id ≠ i := by
            intro o2 ho2 he
            have h1 : 1 ≤ countIdL q2 o2.id := countIdL_pos q2 o2 o2.id ho2 rfl
            rw [he] at h1
            have h2 : countIdL q i ≤ countId b.asks i := countIdL_le_countId b.asks px q i hqmem
            have h3 : countId b.bids i + countId b.asks i ≤ 1 := ho i
            omega
          have hsound2 : ∀ px2 q3 o2, (px2, q3) ∈ (if q2 = [] then eraseKey b.asks px
              else setLevel b.asks px q2) → o2 ∈ q3 →
              lkFind (lkErase b.lookup i) o2.id = some (Side.ask, px2) := by
            intro px2 q3 o2 hq3 ho2
            by_cases hq2e : q2 = []
            · rw [if_pos hq2e] at hq3
              have hne_px : px2 ≠ px := eraseKey_mem_ne b.asks px (px2, q3) hq3
              have hmem2 : (px2, q3) ∈ b.asks := eraseKey_mem b.asks px (px2, q3) hq3
              have hid_ne : o2.id ≠ i := by
                intro he
                have h1 := hs.2 px2 q3 o2 hmem2 ho2
                rw [he, hl] at h1
                exact hne_px ((Prod.mk.injEq _ _ _ _ ▸ Option.some.inj h1).2).symm
              rw [lkFind_erase_ne b.lookup i o2.id hid_ne]
              exact hs.2 px2 q3 o2 hmem2 ho2
            · rw [if_neg hq2e] at hq3
              rcases setLevel_mem b.asks px q2 (px2, q3) hq3 with heq | ⟨hmem2, hne_px⟩
              · have hpx : px2 = px := (Prod.mk.injEq _ _ _ _ ▸ heq).1
                have hq3e : q3 = q2 := (Prod.mk.injEq _ _ _ _ ▸ heq).2
                have ho2q : o2 ∈ q := hsub.subset (hq3e ▸ ho2)
                have hid_ne : o2.id ≠ i := hnotwice o2 (hq3e ▸ ho2)
                rw [lkFind_erase_ne b.lookup i o2.id hid_ne, hpx]
                exact hs.2 px q o2 hqmem ho2q
              · have hid_ne : o2.id ≠ i := by
                  intro he
                  have h1 := hs.2 px2 q3 o2 hmem2 ho2
                  rw [he, hl] at h1
                  exact hne_px ((Prod.mk.injEq _ _ _ _ ▸ Option.some.inj h1).2).symm
                rw [lkFind_erase_ne b.lookup i o2.id hid_ne]
                exact hs.2 px2 q3 o2 hmem2 ho2
          by_cases hq2e : q2 = []
          · simp only [hl, hb, hr, hq2e, if_pos, reduceIte]
            refine ⟨⟨?_, ?_⟩, ?_, ?_⟩
            · intro px2 q3 o2 hq3 ho2
              have hid_ne : o2.id ≠ i := by
                intro he
                have h1 := hs.1 px2 q3 o2 hq3 ho2
                rw [he, hl] at h1
                cases (Prod.mk.injEq _ _ _ _ ▸ Option.some.inj h1).1
              rw [lkFind_erase_ne b.lookup i o2.id hid_ne]
              exact hs.1 px2 q3 o2 hq3 ho2
            · intro px2 q3 o2 hq3 ho2
              exact hsound2 px2 q3 o2 (by rw [if_pos hq2e]; exact hq3) ho2
            · intro j
              show countId b.bids j + countId (eraseKey b.asks px) j ≤ 1
              have h1 := countId_eraseKey b.asks px j
              have h2 : countId b.bids j + countId b.asks j ≤ 1 := ho j
              omega
            · intro j hj
              have hj' : 1 ≤ countId b.bids j + countId (eraseKey b.asks px) j := hj
              have h1 := countId_eraseKey b.asks px j
              exact hu j (by show 1 ≤ countId b.bids j + countId b.asks j; omega)
          · simp only [hl, hb, hr, hq2e, if_neg, reduceIte]
            refine ⟨⟨?_, ?_⟩, ?_, ?_⟩
            · intro px2 q3 o2 hq3 ho2
              have hid_ne : o2.id ≠ i := by
                intro he
                have h1 := hs.1 px2 q3 o2 hq3 ho2
                rw [he, hl] at h1
                cases (Prod.mk.injEq _ _ _ _ ▸ Option.some.inj h1).1
              rw [lkFind_erase_ne b.lookup i o2.id hid_ne]
              exact hs.1 px2 q3 o2 hq3 ho2
            · intro px2 q3 o2 hq3 ho2
              exact hsound2 px2 q3 o2 (by rw [if_neg hq2e]; exact hq3) ho2
            · intro j
              show countId b.bids j + countId (setLevel b.asks px q2) j ≤ 1
              have h1 := countId_setLevel_le b.asks px q q2 j hnda hb
                (countIdL_sublist q2 q j hsub)
              have h2 : countId b.bids j + countId b.asks j ≤ 1 := ho j
              omega
            · intro j hj
              have hj' : 1 ≤ countId b.bids j + countId (setLevel b.asks px q2) j := hj
              have h1 := countId_setLevel_le b.asks px q q2 j hnda hb
                (countIdL_sublist q2 q j hsub)
              exact hu j (by show 1 ≤ countId b.bids j + countId b.asks j; omega)

theorem inv_step (b : OrderBook) (c : Cmd) (used : List Nat)
    (hwf : WF b) (hs : LookupSound b) (ho : IdsOnce b) (hu : IdsUsed b used)
    (hfresh : ∀ o, c = Cmd.order o → o.id ∉ used) :
    LookupSound (stepEngine b c).1 ∧ IdsOnce (stepEngine b c).1 ∧
      IdsUsed (stepEngine b c).1 (newOrderIds [c] ++ used) := by
  cases c with
  | ping => exact ⟨hs, ho, hu⟩
  | order o => exact inv_handleNew o b used hs ho hu (hfresh o rfl)
  | cancel cl i =>
    have hh := inv_handleCancel i b used hwf hs ho hu
    simp only [stepEngine]
    rcases hcc : handleCancel i b with ⟨b2, found, md⟩
    rw [hcc] at hh
    cases found
    · exact hh
    · exact hh

theorem inv_run (cs : List Cmd) :
    ∀ b used, WF b → LookupSound b → IdsOnce b → IdsUsed b used →
      (∀ i ∈ newOrderIds cs, i ∉ used) → (newOrderIds cs).Nodup →
      LookupSound (runBook b cs) ∧ IdsOnce (runBook b cs) := by
  induction cs with
  | nil => intro b used _ hs ho _ _ _; exact ⟨hs, ho⟩
  | cons c cs ih =>
    intro b used hwf hs ho hu hdisj hnd
    have hfresh : ∀ o, c = Cmd.order o → o.id ∉ used := by
      intro o hc
      subst hc
      exact hdisj o.id (by simp [newOrderIds])
    have hstep := inv_step b c used hwf hs ho hu hfresh
    have hwf2 := wf_step b c hwf
    show LookupSound (runBook (stepEngine b c).1 cs) ∧ IdsOnce (runBook (stepEngine b c).1 cs)
    apply ih (stepEngine b c).1 (newOrderIds [c] ++ used) hwf2 hstep.1 hstep.2.1 hstep.2.2
    · intro i hi hmem
      rcases List.mem_append.mp hmem with h1 | h1
      · cases c with
        | ping => simp [newOrderIds] at h1
        | cancel cl j => simp [newOrderIds] at h1
        | order o =>
          have heq : i = o.id := by simpa [newOrderIds] using h1
          rw [heq] at hi
          have hnd2 : o.id ∉ newOrderIds cs ∧ (newOrderIds cs).Nodup :=
            List.nodup_cons.mp hnd
          exact hnd2.1 hi
      · refine hdisj i ?_ h1
        cases c with
        | ping => exact hi
        | cancel cl j => exact hi
        | order o => exact List.mem_cons_of_mem _ hi
    · cases c with
      | ping => exact hnd
      | cancel cl j => exact hnd
      | order o => exact (List.nodup_cons.mp hnd).2

/-- Claim C1 (amended): for every command sequence whose NewOrder ids are
pairwise distinct, after each command every order resting in the book has its
id recorded in lookup at exactly the side and price of the level holding it,
and no id rests in more than one place; the reverse direction of the claimed
equivalence fails — matching deletes fully filled makers from their levels
without touching lookup, so an id may remain a key of lookup with no resting
order (see the counterexample). -/
theorem lookup_sound_resting (cs : List Cmd) (h : (newOrderIds cs).Nodup) :
    LookupSound (runBook emptyBook cs) ∧ IdsOnce (runBook emptyBook cs) := by
  apply inv_run cs emptyBook [] wf_empty
  · exact ⟨fun px q o hq _ => absurd hq (List.not_mem_nil _),
      fun px q o hq _ => absurd hq (List.not_mem_nil _)⟩
  · intro i
    show countId [] i + countId [] i ≤ 1
    simp [countId]
  · intro i hi
    simp only [restingCount, emptyBook, countId, List.map_nil, List.sum_nil] at hi
    exact absurd hi (by decide)
  · intro i _
    exact List.not_mem_nil i
  · exact h

/-- Witness for lookup_sound_resting: rest a bid, rest an ask, cancel the bid;
all NewOrder ids distinct. -/
theorem lookup_sound_resting_wit :
    (newOrderIds [Cmd.order (Order.mk 1 10 Side.bid 99 2 0 Tif.gtc),
       Cmd.order (Order.mk 2 20 Side.ask 101 3 0 Tif.gtc),
       Cmd.cancel 10 1]).Nodup ∧
    (LookupSound (runBook emptyBook [Cmd.order (Order.mk 1 10 Side.bid 99 2 0 Tif.gtc),
       Cmd.order (Order.mk 2 20 Side.ask 101 3 0 Tif.gtc),
       Cmd.cancel 10 1]) ∧
     IdsOnce (runBook emptyBook [Cmd.order (Order.mk 1 10 Side.bid 99 2 0 Tif.gtc),
       Cmd.order (Order.mk 2 20 Side.ask 101 3 0 Tif.gtc),
       Cmd.cancel 10 1])) :=
  ⟨by decide, lookup_sound_resting _ (by decide)⟩
